import Mathlib

/-!
# dir2c: a verification development

A shallow embedding of `src/dir2c.c` and theorems about it.

Modelling conventions.

* A C string (`char*`, NUL-terminated) is a `List Char` holding the characters before the
  terminating NUL; a C `char` is a Lean `Char` (a byte is a `Char` with code below 256).
  The program never calls `setlocale`, so the `<ctype.h>` predicates are those of the "C"
  locale: they hold of ASCII letters and digits only.
* A pointer into a string is the offset from the start of that string.
* A stream opened for writing is its contents together with the file position.
* The directory tree is a value of type `dirent`; a regular file carries what `fopen`,
  `fstat`, `ftell` and `fread` report for it.
* A function returning `0` or `-1` and mutating the output streams becomes a function into
  `Except outputs outputs`: `.ok st` is "returned 0 with the streams in state `st`",
  `.error st` is "returned -1 with the streams in state `st`".
* Allocation (`malloc`, `vsnprintf`) is assumed to succeed; messages to `stderr` are not
  modelled.
-/

namespace Dir2c

/-- A C string: the characters before the terminating NUL. -/
abbrev CStr := List Char

/-- `#define DEFAULT_TEXT_EXTENSIONS "ini,txt,json,xml"`. -/
def DEFAULT_TEXT_EXTENSIONS : CStr := "ini,txt,json,xml".toList

/-- `#define PATH_SEPARATOR '/'`. -/
def PATH_SEPARATOR : Char := '/'

/-- `enum res_type`. -/
inductive res_type where
  | RES_TYPE_BINARY
  | RES_TYPE_TEXT
  deriving DecidableEq, Repr

/-! ## libc string primitives -/

/-- `isalnum` in the "C" locale. -/
def isalnum (c : Char) : Bool := c.isAlphanum

/-- `isalpha` in the "C" locale. -/
def isalpha (c : Char) : Bool := c.isAlpha

/-- `toupper` in the "C" locale. -/
def toupper (c : Char) : Char := c.toUpper

/-- The character read through `p[i]` for a string `p`: the terminating NUL at the end. -/
def char_at (s : CStr) (i : Nat) : Char := s.getD i (Char.ofNat 0)

/-- `strrchr(s, c)` for `c` other than NUL: the offset of the last occurrence of `c`,
or `none` for the null pointer. -/
def strrchr : CStr → Char → Option Nat
  | [], _ => none
  | x :: xs, c =>
    match strrchr xs c with
    | some i => some (i + 1)
    | none => if x = c then some 0 else none

/-- `strncmp(h, n, strlen(n)) == 0`: the string `h` starts with `n`. -/
def starts_with : CStr → CStr → Bool
  | _, [] => true
  | [], _ :: _ => false
  | h :: hs, n :: ns => h == n && starts_with hs ns

/-- `strstr(haystack, needle)`: the offset of the first occurrence of `needle`,
or `none` for the null pointer. -/
def strstr : CStr → CStr → Option Nat
  | [], needle => if starts_with [] needle then some 0 else none
  | h :: hs, needle =>
    if starts_with (h :: hs) needle then some 0
    else (strstr hs needle).map (· + 1)

/-- `strndup(s, n)`. -/
def strndup (s : CStr) (n : Nat) : CStr := s.take n

/-! ## `filename`, `file_extension` -/

/-- `filename(path)`, as the offset of the returned pointer into `path`. -/
def filename_off (path : CStr) : Nat :=
  match strrchr path PATH_SEPARATOR with
  | none => 0
  | some i => i + 1

/-- `filename(path)`: the string at the returned pointer. -/
def filename (path : CStr) : CStr := path.drop (filename_off path)

/-- `file_extension(filename)`, as the offset of the returned pointer into `filename`;
`none` is the null pointer. -/
def file_extension_off (fname : CStr) : Option Nat :=
  match strrchr fname '.' with
  | some i => some (i + 1)
  | none => none

/-- `file_extension(filename)`: the string at the returned pointer. -/
def file_extension (fname : CStr) : Option CStr :=
  (file_extension_off fname).map fname.drop

/-! ## `str_santize`, `str_upper` -/

/-- The loop of `str_santize`, started at index `i` with `k = len - i` iterations left. -/
def str_santize_loop (str : CStr) (i : Nat) : Nat → CStr
  | 0 => str
  | k + 1 =>
    str_santize_loop (if isalnum (char_at str i) = false then str.set i '_' else str) (i + 1) k

/-- `str_santize(str)`: the contents of the buffer after the call. -/
def str_santize (str : CStr) : CStr := str_santize_loop str 0 str.length

/-- The loop of `str_upper`, started at index `i` with `k = len - i` iterations left. -/
def str_upper_loop (str : CStr) (i : Nat) : Nat → CStr
  | 0 => str
  | k + 1 =>
    str_upper_loop (if isalpha (char_at str i) then str.set i (toupper (char_at str i)) else str)
      (i + 1) k

/-- `str_upper(str)`: the contents of the buffer after the call. -/
def str_upper (str : CStr) : CStr := str_upper_loop str 0 str.length

/-! ## `file_is_text` -/

/-- `file_is_text(ctx, filename)`, with `ctx->text_extension` passed as `text_extension`;
`true` is the return value 1 and `false` the return value 0. -/
def file_is_text (text_extension : CStr) (fname : CStr) : Bool :=
  match file_extension fname with
  | none => false
  | some ext =>
    match strstr text_extension ext with
    | none => false
    | some p =>
      let ext_len := ext.length
      if p = 0 then
        char_at text_extension (p + ext_len) = ',' ||
          char_at text_extension (p + ext_len) = Char.ofNat 0
      else
        char_at text_extension (p - 1) = ',' &&
          (char_at text_extension (p + ext_len) = ',' ||
            char_at text_extension (p + ext_len) = Char.ofNat 0)

/-! ## Output streams -/

/-- A stream opened with `fopen(path, "w")`: the bytes of the file and the file position. -/
structure stream where
  data : List Char
  pos : Nat
  deriving DecidableEq, Repr

/-- Writing the characters `s` to a stream at its position (what every `fprintf` of this
program amounts to once its format is expanded): they replace what is there and extend the
file past its end. -/
def fputs (f : stream) (s : CStr) : stream :=
  { data := f.data.take f.pos ++ s ++ f.data.drop (f.pos + s.length)
    pos := f.pos + s.length }

/-- `fseek(f, -1, SEEK_CUR)`: one byte back; the call fails and leaves the position alone
when that would be before the start of the file. -/
def fseek_back1 (f : stream) : stream :=
  if f.pos = 0 then f else { f with pos := f.pos - 1 }

/-- The digits printed by the conversion `%lu` (`"%" PRIu64`). -/
def fmt_u (n : Nat) : CStr := Nat.toDigits 10 n

/-- The digits printed by the conversion `%02x`: lowercase hexadecimal, padded with zeros
on the left to two characters. -/
def fmt_02x (v : Nat) : CStr :=
  let ds := Nat.toDigits 16 v
  List.replicate (2 - ds.length) '0' ++ ds

/-- A byte of a file. -/
abbrev byte := Fin 256

/-- The value of the `char c` that `fread(&c, 1, 1, f)` stores for the byte `b`
(`char` is signed). -/
def to_char (b : byte) : Int :=
  if b.val < 128 then (b.val : Int) else (b.val : Int) - 256

/-- The expression `c & 0xff` on the promoted `char`. -/
def and_ff (c : Int) : Nat := (c % 256).toNat

/-! ## The files on disk -/

/-- The fields `st_dev` and `st_ino` of `struct stat`. -/
structure stat where
  st_dev : Nat
  st_ino : Nat
  deriving DecidableEq, Repr

/-- What the C library reports for a regular file that `fopen(path, "r")` opened:
`fstat` is the result of `fstat(fileno(f), &stat)` (`none` when it returns -1), `bytes` are
the contents (the file's size, from `ftell` at its end, is their number), and `fread_error`
is `some k` when the `fread` after `k` bytes fails without end-of-file. -/
structure regfile where
  fstat : Option stat
  bytes : List byte
  fread_error : Option Nat
  deriving DecidableEq, Repr

/-- A directory entry as `readdir` returns it, with what lies behind it: for `DT_REG` the
file `fopen` gives (`none` when `fopen` fails), for `DT_DIR` whether `opendir` succeeds on
it and the entries `readdir` then enumerates, in that order; `DT_OTHER` is every other
`d_type`. For the entries `.` and `..` the last two fields are never consulted. -/
inductive dirent where
  | DT_REG (d_name : CStr) (f : Option regfile)
  | DT_DIR (d_name : CStr) (opendir_ok : Bool) (entries : List dirent)
  | DT_OTHER (d_name : CStr)

/-- The configuration in `struct context`, fixed once `main` opened the two artifacts
(`pfx` is the field `prefix`). -/
structure context where
  text_extension : CStr
  pfx : Option CStr
  define : CStr
  header_filename : CStr
  header_stat : stat
  source_filename : CStr
  source_stat : stat

/-- The streams the program writes: `ctx->header`, `ctx->source` and `stdout`. -/
structure outputs where
  header : stream
  source : stream
  stdout : List Char
  deriving DecidableEq, Repr

/-! ## `print_declaration`, `process_file` -/

/-- `file_size(f)`. -/
def file_size (f : regfile) : Nat := f.bytes.length

/-- `print_declaration(f, type, prefix, name, size)`. -/
def print_declaration (f : stream) (type : res_type) (pfx : Option CStr) (name : CStr)
    (size : Nat) : stream :=
  let f := fputs f "const char ".toList
  let f := match pfx with
    | some p => fputs f (p ++ "_".toList)
    | none => f
  let f := fputs f (name ++ "[".toList ++ fmt_u size)
  let f := if type = res_type.RES_TYPE_TEXT then fputs f "+1".toList else f
  fputs f "]".toList

/-- The three ways the block "is header file ? / is source file ?" of `process_file` ends. -/
inductive guard_result where
  | skip
  | failed
  | pass
  deriving DecidableEq, Repr

/-- The block "is header file ? / is source file ?" of `process_file` (lines 278-297):
`skip` is `goto LBL_SKIP`, `failed` is `goto LBL_FAILED_FSTAT`, `pass` is falling through. -/
def output_file_guard (ctx : context) (name : CStr) (f : regfile) : guard_result :=
  if name = ctx.header_filename then
    match f.fstat with
    | none => guard_result.failed
    | some st =>
      if st.st_dev = ctx.header_stat.st_dev ∧ st.st_ino = ctx.header_stat.st_ino then
        guard_result.skip
      else guard_result.pass
  else if name = ctx.source_filename then
    match f.fstat with
    | none => guard_result.failed
    | some st =>
      if st.st_dev = ctx.source_stat.st_dev ∧ st.st_ino = ctx.source_stat.st_ino then
        guard_result.skip
      else guard_result.pass
  else guard_result.pass

/-- The `for(;;)` loop of `process_file` around `fread`: `bytes` is what is left of the
file and `err` counts the reads left before the failing one. The result is the stream
`ctx->source` and whether the loop ended by `break` (`true`) or by
`goto LBL_FAILED_FREAD` (`false`). -/
def fread_loop : List byte → Option Nat → stream → stream × Bool
  | _, some 0, src => (src, false)
  | [], _, src => (src, true)
  | b :: bs, err, src =>
    fread_loop bs (err.map (· - 1))
      (fputs src ("0x".toList ++ fmt_02x (and_ff (to_char b)) ++ ",".toList))

/-- `process_file(ctx, dirpath, name, prefix)`, where `f` is what `fopen` gives for the
path `dirpath/name`. -/
def process_file (ctx : context) (dirpath name : CStr) (pfx : Option CStr)
    (f : Option regfile) (st : outputs) : Except outputs outputs :=
  let path := dirpath ++ [PATH_SEPARATOR] ++ name
  match f with
  | none => .error st
  | some f =>
    match output_file_guard ctx name f with
    | guard_result.failed => .error st
    | guard_result.skip => .ok st
    | guard_result.pass =>
      let f_size := file_size f
      if f_size = 0 then
        .ok { st with
          stdout := st.stdout ++ "Ignoring empty file '".toList ++ path ++ "'\n".toList }
      else
        let f_type :=
          if file_is_text ctx.text_extension name then res_type.RES_TYPE_TEXT
          else res_type.RES_TYPE_BINARY
        let name := str_santize name
        let header := fputs st.header "extern ".toList
        let header := print_declaration header f_type pfx name f_size
        let header := fputs header ";\n".toList
        let source := print_declaration st.source f_type pfx name f_size
        let source := fputs source " = \x7b".toList
        match fread_loop f.bytes f.fread_error source with
        | (source, false) => .error { st with header := header, source := source }
        | (source, true) =>
          let source := match f_type with
            | res_type.RES_TYPE_BINARY => fseek_back1 source
            | res_type.RES_TYPE_TEXT => fputs source "0x00".toList
          let source := fputs source "\x7d;\n".toList
          .ok { st with header := header, source := source }

/-! ## `process_dir` -/

/-- The first loop of `process_dir` ("files") over the entries `readdir` returns. -/
def process_dir_files (ctx : context) (dirpath : CStr) (pfx : Option CStr) :
    List dirent → outputs → Except outputs outputs
  | [], st => .ok st
  | dirent.DT_REG d_name f :: es, st =>
    match process_file ctx dirpath d_name pfx f st with
    | .ok st1 => process_dir_files ctx dirpath pfx es st1
    | .error st1 => .error st1
  | _ :: es, st => process_dir_files ctx dirpath pfx es st

mutual
/-- `process_dir(ctx, dirpath, prefix)`, where `d` is what lies at `dirpath`: `opendir`
succeeds on a directory that can be opened and on nothing else. -/
def process_dir (ctx : context) (dirpath : CStr) (pfx : Option CStr) :
    dirent → outputs → Except outputs outputs
  | dirent.DT_DIR _ true entries, st =>
    match process_dir_files ctx dirpath pfx entries st with
    | .error st1 => .error st1
    | .ok st1 => process_dir_subdirs ctx dirpath pfx entries st1
  | _, st => .error st
/-- The second loop of `process_dir` ("subdirs"), after `rewinddir`. -/
def process_dir_subdirs (ctx : context) (dirpath : CStr) (pfx : Option CStr) :
    List dirent → outputs → Except outputs outputs
  | [], st => .ok st
  | dirent.DT_DIR d_name ok entries :: es, st =>
    if d_name = ".".toList ∨ d_name = "..".toList then
      process_dir_subdirs ctx dirpath pfx es st
    else
      let sub_dirpath := dirpath ++ [PATH_SEPARATOR] ++ d_name
      let d_name1 := str_santize d_name
      let sub_pfx := match pfx with
        | some p => p ++ "_".toList ++ d_name1
        | none => d_name1
      match process_dir ctx sub_dirpath (some sub_pfx) (dirent.DT_DIR d_name ok entries) st with
      | .ok st1 => process_dir_subdirs ctx dirpath pfx es st1
      | .error st1 => .error st1
  | _ :: es, st => process_dir_subdirs ctx dirpath pfx es st
end

/-! ## The artifacts and `main` -/

/-- The options `main` holds once `getopt` is done and `-H`, `-s` were found: `none` is a
null pointer, an option that was not given (`pfx` is the value of `-p`). -/
structure options where
  define : Option CStr
  header_path : CStr
  source_path : CStr
  pfx : Option CStr
  text_extension : Option CStr

/-- The block "define defined ?" of `main` followed by `str_upper( ctx.define )`
(lines 671-687): the value of `ctx.define` afterwards. -/
def main_define (define : Option CStr) (header_path : CStr) : CStr :=
  let define := match define with
    | some d => d
    | none =>
      let name := filename header_path
      match file_extension_off name with
      | some extension => strndup name (extension - 1)
      | none => name
  str_upper define

/-- The context `main` builds from the options; `header_stat` and `source_stat` are what
`fstat` stores in `fopen_header` and `fopen_source`. -/
def main_context (o : options) (header_stat source_stat : stat) : context :=
  { text_extension := match o.text_extension with
      | some t => t
      | none => DEFAULT_TEXT_EXTENSIONS
    pfx := o.pfx
    define := main_define o.define o.header_path
    header_filename := filename o.header_path
    header_stat := header_stat
    source_filename := filename o.source_path
    source_stat := source_stat }

/-- `fopen_header(ctx)` when `fopen` and `fstat` succeed: the stream `ctx->header`. -/
def fopen_header (ctx : context) : stream :=
  let f : stream := { data := [], pos := 0 }
  let f := fputs f ("#ifndef ".toList ++ ctx.define ++ "\n".toList)
  let f := fputs f ("#define ".toList ++ ctx.define ++ "\n\n".toList)
  let f := fputs f "#ifdef __cplusplus\n".toList
  let f := fputs f "extern \"C\" \x7b\n".toList
  fputs f "#endif\n\n".toList

/-- `fclose_header(ctx)`: the stream `ctx->header` as it is closed. -/
def fclose_header (header : stream) : stream :=
  let f := fputs header "\n".toList
  let f := fputs f "#ifdef __cplusplus\n".toList
  let f := fputs f "\x7d\n".toList
  let f := fputs f "#endif\n".toList
  let f := fputs f "\n".toList
  fputs f "#endif\n".toList

/-- `fopen_source(ctx)` when `fopen` and `fstat` succeed: the stream `ctx->source`. -/
def fopen_source : stream :=
  fputs { data := [], pos := 0 } "/* Generated by dir2c */\n\n".toList

/-- The part "start" of `main` (lines 705-732) when both artifacts open: `root` is what lies
at the path `root_path`. The result `.ok st` is `EXIT_SUCCESS` with the two artifacts as
closed; `.error st` is the walk failing, with the artifacts as `fclose_header` and
`fclose_source` leave them at `LBL_FAILED_PROCESS_DIR` (what `main` does after that label
is not modelled). -/
def main_start (o : options) (header_stat source_stat : stat) (root_path : CStr)
    (root : dirent) : Except outputs outputs :=
  let ctx := main_context o header_stat source_stat
  let st : outputs := { header := fopen_header ctx, source := fopen_source, stdout := [] }
  match process_dir ctx root_path ctx.pfx root st with
  | .ok st1 => .ok { st1 with header := fclose_header st1.header }
  | .error st1 => .error { st1 with header := fclose_header st1.header }

/-- The lines of a text: the pieces between line feeds. -/
def lines (s : List Char) : List (List Char) := s.splitOn '\n'

/-! ## Specification-side definitions -/

/-- What the sanitizer is said to do with one character: keep an alphanumeric, replace
anything else by an underscore. -/
def sanitize_char (c : Char) : Char := if isalnum c then c else '_'

/-- What the guard uppercasing is said to do with one character: uppercase an alphabetic
character, keep anything else. -/
def upper_char (c : Char) : Char := if isalpha c then toupper c else c

/-- The string `base` is the part of `path` after its last `/` (all of it without one). -/
def is_base_name (path base : CStr) : Prop :=
  (∃ pre, path = pre ++ '/' :: base ∧ '/' ∉ base) ∨ ('/' ∉ path ∧ base = path)

/-- The string `stem` is `name` without its extension: without its last `.` and what
follows it (all of `name` without one). -/
def is_stem (name stem : CStr) : Prop :=
  (∃ ext, name = stem ++ '.' :: ext ∧ '.' ∉ ext) ∨ ('.' ∉ name ∧ stem = name)

/-- The position of a stream is at the end of its data. -/
def at_end (f : stream) : Prop := f.pos = f.data.length

/-- The stream with contents `d` and its position at the end. -/
def stream_end (d : List Char) : stream := { data := d, pos := d.length }

/-- The lowercase hexadecimal digit of a value below 16. -/
def hex_digit (n : Nat) : Char := "0123456789abcdef".toList.getD n '0'

/-- The literal of a byte: `0x` and the two lowercase hexadecimal digits of its value. -/
def byte_literal (b : Nat) : CStr := ['0', 'x', hex_digit (b / 16), hex_digit (b % 16)]

/-- The byte list of a definition: the literals of the bytes in file order, then one
literal `0x00` for a text file, separated by commas. -/
def byte_list (bs : List byte) (text : Bool) : CStr :=
  List.intercalate [','] (bs.map (fun b => byte_literal b.val) ++
    if text then ["0x00".toList] else [])

/-- The value of a lowercase hexadecimal digit. -/
def hex_value (c : Char) : Option Nat :=
  let i := "0123456789abcdef".toList.indexOf c
  if i < 16 then some i else none

/-- Reading a literal `0xhh` back. -/
def read_byte_literal : CStr → Option Nat
  | ['0', 'x', h, l] =>
    match hex_value h, hex_value l with
    | some a, some b => some (a * 16 + b)
    | _, _ => none
  | _ => none

/-- Reading every literal of a list of literals back. -/
def read_byte_literals : List CStr → Option (List Nat)
  | [] => some []
  | t :: ts =>
    match read_byte_literal t, read_byte_literals ts with
    | some b, some bs => some (b :: bs)
    | _, _ => none

/-- Reading a byte list back: its elements are the pieces between commas. -/
def read_byte_list (s : CStr) : Option (List Nat) := read_byte_literals (s.splitOn ',')

/-- The value of a decimal digit. -/
def digit_value (c : Char) : Option Nat :=
  if c.isDigit then some (c.toNat - '0'.toNat) else none

/-- Reading a decimal numeral, continuing from the value `acc`. -/
def parse_dec_from (acc : Nat) : CStr → Option Nat
  | [] => some acc
  | c :: cs =>
    match digit_value c with
    | some d => parse_dec_from (acc * 10 + d) cs
    | none => none

/-- Reading a decimal numeral (at least one digit). -/
def parse_dec (s : CStr) : Option Nat := if s = [] then none else parse_dec_from 0 s

/-- The sum of a list of decimal numerals. -/
def sum_terms : List CStr → Option Nat
  | [] => some 0
  | t :: ts =>
    match parse_dec t, sum_terms ts with
    | some a, some b => some (a + b)
    | _, _ => none

/-- The value of the size expression between `[` and `]` of a declaration: a sum of
decimal numerals, as the C compiler evaluates it. -/
def size_value (s : CStr) : Option Nat := sum_terms (s.splitOn '+')

/-- The size expression `print_declaration` writes between `[` and `]`. -/
def size_expr (n : Nat) (text : Bool) : CStr :=
  fmt_u n ++ if text then "+1".toList else []

/-- The line of the declaration artifact for the array `id` of a file of `n` bytes. -/
def declaration_line (id : CStr) (n : Nat) (text : Bool) : CStr :=
  "extern const char ".toList ++ id ++ "[".toList ++ size_expr n text ++ "];\n".toList

/-- The line of the definition artifact for the array `id` of a file with bytes `bs`. -/
def definition_line (id : CStr) (bs : List byte) (text : Bool) : CStr :=
  "const char ".toList ++ id ++ "[".toList ++ size_expr bs.length text ++ "] = \x7b".toList ++
    byte_list bs text ++ "\x7d;\n".toList

/-- The array name `print_declaration` writes for the namespace `pfx` and the sanitized
name `name`. -/
def declared_name (pfx : Option CStr) (name : CStr) : CStr :=
  (match pfx with
    | some p => p ++ "_".toList
    | none => []) ++ name

/-- A regular file of the tree as the walk meets it: the names `d1, ..., dk` of the
directories between the root and the file, the name of the file, and what `fopen` gives. -/
structure resource where
  dirs : List CStr
  name : CStr
  file : Option regfile
  deriving DecidableEq, Repr

/-- The regular files among the entries of one directory, in the order of enumeration. -/
def entries_files : List dirent → List resource
  | [] => []
  | dirent.DT_REG d_name f :: es => { dirs := [], name := d_name, file := f } :: entries_files es
  | _ :: es => entries_files es

mutual
/-- Every regular file below the directory `d`, each one once: the files of the directory
itself, then those of its subdirectories (the entries `.` and `..` are not subdirectories). -/
def dirent_resources : dirent → List resource
  | dirent.DT_DIR _ _ entries => entries_files entries ++ subdirs_resources entries
  | _ => []
/-- Every regular file below the subdirectories among `es`, each one once. -/
def subdirs_resources : List dirent → List resource
  | [] => []
  | dirent.DT_DIR d_name ok entries :: es =>
    (if d_name = ".".toList ∨ d_name = "..".toList then []
     else (dirent_resources (dirent.DT_DIR d_name ok entries)).map
       (fun r => { r with dirs := d_name :: r.dirs })) ++ subdirs_resources es
  | _ :: es => subdirs_resources es
end

/-- The bytes of a regular file of the tree. -/
def resource_bytes (r : resource) : List byte :=
  match r.file with
  | some f => f.bytes
  | none => []

/-- The emitter embeds the file: it passes the guard of the output files and is not empty. -/
def emitted (ctx : context) (r : resource) : Bool :=
  match r.file with
  | some f => decide (output_file_guard ctx r.name f = guard_result.pass ∧ f.bytes ≠ [])
  | none => false

/-- Every `fread` of the file succeeds until its end is reached. -/
def reads_to_end (f : regfile) : Bool :=
  match f.fread_error with
  | none => true
  | some k => decide (f.bytes.length < k)

/-- The underscore-join of the global prefix (when there is one), the sanitized names of
the directories `d1, ..., dk` and the sanitized name of the file. -/
def array_name (gp : Option CStr) (dirs : List CStr) (name : CStr) : CStr :=
  List.intercalate ['_'] (gp.toList ++ dirs.map str_santize ++ [str_santize name])

/-- The line of the declaration artifact for a regular file of the tree. -/
def resource_declaration (ctx : context) (gp : Option CStr) (r : resource) : CStr :=
  declaration_line (array_name gp r.dirs r.name) (resource_bytes r).length
    (file_is_text ctx.text_extension r.name)

/-- The line of the definition artifact for a regular file of the tree. -/
def resource_definition (ctx : context) (gp : Option CStr) (r : resource) : CStr :=
  definition_line (array_name gp r.dirs r.name) (resource_bytes r)
    (file_is_text ctx.text_extension r.name)

/-- The lines of the declaration artifact for the embedded files among `rs`, in order. -/
def header_text (ctx : context) (gp : Option CStr) (rs : List resource) : CStr :=
  (rs.filter (emitted ctx)).flatMap (resource_declaration ctx gp)

/-- The lines of the definition artifact for the embedded files among `rs`, in order. -/
def source_text (ctx : context) (gp : Option CStr) (rs : List resource) : CStr :=
  (rs.filter (emitted ctx)).flatMap (resource_definition ctx gp)

/-- The namespace that `process_dir` derives for the subdirectory `d_name` of a directory
whose own namespace is `pfx`. -/
def sub_namespace (pfx : Option CStr) (d_name : CStr) : CStr :=
  match pfx with
  | some p => p ++ "_".toList ++ str_santize d_name
  | none => str_santize d_name

/-- The start of a definition line that `process_file` has written when the `fread` after
`k` bytes fails: everything up to the literals of the first `k` bytes. -/
def definition_start (id : CStr) (bs : List byte) (text : Bool) (k : Nat) : CStr :=
  "const char ".toList ++ id ++ "[".toList ++ size_expr bs.length text ++ "] = \x7b".toList ++
    (bs.take k).flatMap (fun b => byte_literal b.val ++ [','])

/-- What a failing walk has written after the lines of the files it completed: nothing, or
the declaration of the next file `r`, which the emitter embeds, and the start of its
definition. -/
def interrupted (ctx : context) (gp : Option CStr) (rest : List resource) (hx sx : CStr) :
    Prop :=
  (hx = [] ∧ sx = []) ∨
    ∃ r rest1 k, rest = r :: rest1 ∧ emitted ctx r = true ∧
      hx = resource_declaration ctx gp r ∧
      sx = definition_start (array_name gp r.dirs r.name) (resource_bytes r)
        (file_is_text ctx.text_extension r.name) k

/-- The file is one of the two output artifacts by base name and by identity: its name is
the base name of the declaration artifact and its identity the one captured for that
artifact, or the same for the definition artifact. -/
def is_output_file (ctx : context) (r : resource) : Bool :=
  match r.file with
  | some f =>
    decide ((r.name = ctx.header_filename ∧ f.fstat = some ctx.header_stat) ∨
      (r.name = ctx.source_filename ∧ f.fstat = some ctx.source_stat))
  | none => false

/-- The file is one of the two output artifacts by identity alone, whatever its name. -/
def has_output_identity (ctx : context) (r : resource) : Bool :=
  match r.file with
  | some f => decide (f.fstat = some ctx.header_stat ∨ f.fstat = some ctx.source_stat)
  | none => false

/-- The call of `process_file` on the file does not end at `LBL_FAILED_FSTAT` or at
`LBL_FAILED_FOPEN`: the file opens and, where the guard asks for it, `fstat` succeeds. -/
def guard_resolves (ctx : context) (r : resource) : Bool :=
  match r.file with
  | some f => decide (output_file_guard ctx r.name f ≠ guard_result.failed)
  | none => false

/-- The extension `ext` occurs in the comma-joined string `exts` as a delimited entry:
preceded by the start of the string or a comma, followed by a comma or the end. -/
def is_delimited_entry (exts ext : CStr) : Prop :=
  ∃ pre post, exts = pre ++ ext ++ post ∧
    (pre = [] ∨ ∃ p, pre = p ++ [',']) ∧ (post = [] ∨ ∃ q, post = ',' :: q)

/-! ## Example inputs -/

/-- The options `-p P -H /out/res.h -s /out/res.c`. -/
def opts_P : options :=
  { define := none, header_path := "/out/res.h".toList, source_path := "/out/res.c".toList,
    pfx := some "P".toList, text_extension := none }

/-- The options `-H /out/res.h -s /out/res.c`, without a prefix. -/
def opts_plain : options :=
  { define := none, header_path := "/out/res.h".toList, source_path := "/out/res.c".toList,
    pfx := none, text_extension := none }

/-- The file `a.txt` with bytes `48 65`. -/
def file_a_txt : dirent :=
  dirent.DT_REG "a.txt".toList
    (some { fstat := some ⟨1, 10⟩, bytes := [0x48, 0x65], fread_error := none })

/-- The directory `sub` holding the file `b.bin` with bytes `01 02`. -/
def dir_sub : dirent :=
  dirent.DT_DIR "sub".toList true
    [dirent.DT_DIR ".".toList true [], dirent.DT_DIR "..".toList true [],
     dirent.DT_REG "b.bin".toList
       (some { fstat := some ⟨1, 11⟩, bytes := [0x01, 0x02], fread_error := none })]

/-- The tree with root `/r` holding `/r/a.txt` and `/r/sub/b.bin`, the file enumerated
before the subdirectory. -/
def tree_r : dirent :=
  dirent.DT_DIR "/r".toList true
    [dirent.DT_DIR ".".toList true [], dirent.DT_DIR "..".toList true [], file_a_txt, dir_sub]

/-- The same tree, the subdirectory enumerated before the file. -/
def tree_r_rev : dirent :=
  dirent.DT_DIR "/r".toList true
    [dir_sub, file_a_txt, dirent.DT_DIR "..".toList true [], dirent.DT_DIR ".".toList true []]

/-- The bytes of a text, one per character. -/
def bytes_of (s : CStr) : List byte :=
  s.map (fun c => ⟨c.toNat % 256, Nat.mod_lt _ (by decide)⟩)

/-- What the definition artifact holds on disk once the one-byte binary file `a.bin` was
written to it: `fseek( ctx->source, -1, SEEK_CUR )` flushes the stream, with the banner and
the definition of `a_bin` up to the comma after its byte; the closing `};` that follows
stays in the buffer of the stream. -/
def flushed_source : CStr :=
  "/* Generated by dir2c */\n\nconst char a_bin[1] = \x7b0x01,".toList

/-- A tree with the binary file `a.bin`, enumerated first, and the file `alias`, a hard
link to the definition artifact under another name: it has the identity captured for that
artifact and, when the walk opens it after `a.bin`, the contents `flushed_source`. -/
def tree_alias : dirent :=
  dirent.DT_DIR "/r".toList true
    [dirent.DT_REG "a.bin".toList
       (some { fstat := some ⟨1, 20⟩, bytes := [0x01], fread_error := none }),
     dirent.DT_REG "alias".toList
       (some { fstat := some ⟨1, 3⟩, bytes := bytes_of flushed_source, fread_error := none })]

/-- A tree in which the file `bad` cannot be opened for reading: it lies between the files
`first` and `later` of the root, which also has a subdirectory `sub` with a file. -/
def tree_bad : dirent :=
  dirent.DT_DIR "/r".toList true
    [dirent.DT_REG "first".toList
       (some { fstat := some ⟨1, 12⟩, bytes := [0x31], fread_error := none }),
     dirent.DT_REG "bad".toList none,
     dirent.DT_REG "later".toList
       (some { fstat := some ⟨1, 13⟩, bytes := [0x32], fread_error := none }),
     dir_sub]

/-- The options `-H inc/res -s src/res`: the two artifacts have the same base name. -/
def opts_same_name : options :=
  { define := none, header_path := "inc/res".toList, source_path := "src/res".toList,
    pfx := none, text_extension := none }

/-- A tree with the files `a.txt` and `a_txt` in one directory. -/
def tree_clash : dirent :=
  dirent.DT_DIR "/r".toList true
    [dirent.DT_REG "a.txt".toList
       (some { fstat := some ⟨1, 14⟩, bytes := [0x31], fread_error := none }),
     dirent.DT_REG "a_txt".toList
       (some { fstat := some ⟨1, 15⟩, bytes := [0x32], fread_error := none })]

/-- A tree with the files `sub/b` and `sub_b` under the root. -/
def tree_clash_sub : dirent :=
  dirent.DT_DIR "/r".toList true
    [dirent.DT_DIR "sub".toList true
       [dirent.DT_REG "b".toList
         (some { fstat := some ⟨1, 16⟩, bytes := [0x33], fread_error := none })],
     dirent.DT_REG "sub_b".toList
       (some { fstat := some ⟨1, 17⟩, bytes := [0x34], fread_error := none })]

/-- The two artifacts and `stdout` with nothing written yet. -/
def outputs_empty : outputs :=
  { header := stream_end [], source := stream_end [], stdout := [] }

/-! ## Lemmas on the string primitives -/

theorem char_at_append_cons (pre : CStr) (c : Char) (post : CStr) :
    char_at (pre ++ c :: post) pre.length = c := by
  induction pre with
  | nil => simp [char_at]
  | cons x xs ih => simpa [char_at] using ih

theorem set_append_cons (pre : CStr) (c d : Char) (post : CStr) :
    (pre ++ c :: post).set pre.length d = pre ++ d :: post := by
  induction pre with
  | nil => simp
  | cons x xs ih => simp [ih]

theorem str_santize_loop_eq (rest : CStr) : ∀ pre : CStr,
    str_santize_loop (pre ++ rest) pre.length rest.length = pre ++ rest.map sanitize_char := by
  induction rest with
  | nil => intro pre; simp [str_santize_loop]
  | cons c cs ih =>
    intro pre
    have h := ih (pre ++ [sanitize_char c])
    simp only [List.length_append, List.length_singleton, List.append_assoc,
      List.singleton_append] at h
    simp only [List.length_cons, str_santize_loop, char_at_append_cons, set_append_cons,
      List.map_cons]
    by_cases hc : isalnum c = true
    · simp only [hc, sanitize_char, if_true] at h ⊢
      simpa using h
    · simp only [Bool.not_eq_true] at hc
      simp only [hc, sanitize_char, if_true] at h ⊢
      simpa using h

theorem str_santize_eq_map (str : CStr) : str_santize str = str.map sanitize_char := by
  have h := str_santize_loop_eq str []
  simpa [str_santize] using h

theorem str_upper_loop_eq (rest : CStr) : ∀ pre : CStr,
    str_upper_loop (pre ++ rest) pre.length rest.length = pre ++ rest.map upper_char := by
  induction rest with
  | nil => intro pre; simp [str_upper_loop]
  | cons c cs ih =>
    intro pre
    have h := ih (pre ++ [upper_char c])
    simp only [List.length_append, List.length_singleton, List.append_assoc,
      List.singleton_append] at h
    simp only [List.length_cons, str_upper_loop, char_at_append_cons, set_append_cons,
      List.map_cons]
    by_cases hc : isalpha c = true
    · simp only [hc, upper_char, if_true] at h ⊢
      simpa using h
    · simp only [hc, upper_char] at h ⊢
      simpa using h

theorem str_upper_eq_map (str : CStr) : str_upper str = str.map upper_char := by
  have h := str_upper_loop_eq str []
  simpa [str_upper] using h

theorem strrchr_none (c : Char) : ∀ s : CStr, c ∉ s → strrchr s c = none := by
  intro s
  induction s with
  | nil => intro _; rfl
  | cons x xs ih =>
    intro h
    simp only [List.mem_cons, not_or] at h
    have hx : ¬ x = c := fun e => h.1 e.symm
    simp [strrchr, ih h.2, hx]

theorem strrchr_last (c : Char) (post : CStr) (hpost : c ∉ post) : ∀ pre : CStr,
    strrchr (pre ++ c :: post) c = some pre.length := by
  intro pre
  induction pre with
  | nil => simp [strrchr, strrchr_none c post hpost]
  | cons x xs ih => simp [strrchr, ih]

theorem strrchr_isSome_of_mem (c : Char) : ∀ s : CStr, c ∈ s → (strrchr s c).isSome = true := by
  intro s
  induction s with
  | nil => intro h; simp at h
  | cons x xs ih =>
    intro h
    simp only [strrchr]
    cases hxs : strrchr xs c with
    | some j => simp
    | none =>
      have hx : x = c := by
        rcases List.mem_cons.1 h with e | e
        · exact e.symm
        · have := ih e
          simp [hxs] at this
      simp [hx]

theorem not_mem_of_strrchr_none (c : Char) (s : CStr) (h : strrchr s c = none) : c ∉ s := by
  intro hmem
  have := strrchr_isSome_of_mem c s hmem
  simp [h] at this

theorem strrchr_some_split (c : Char) : ∀ (s : CStr) (i : Nat), strrchr s c = some i →
    ∃ pre post, s = pre ++ c :: post ∧ c ∉ post ∧ pre.length = i := by
  intro s
  induction s with
  | nil => intro i h; simp [strrchr] at h
  | cons x xs ih =>
    intro i h
    simp only [strrchr] at h
    cases hxs : strrchr xs c with
    | some j =>
      rw [hxs] at h
      obtain ⟨pre, post, e, hn, hl⟩ := ih j hxs
      refine ⟨x :: pre, post, by simp [e], hn, ?_⟩
      simp only [Option.some.injEq] at h
      simp [hl, h]
    | none =>
      rw [hxs] at h
      by_cases hx : x = c
      · simp only [hx, if_true, Option.some.injEq] at h
        exact ⟨[], xs, by simp [hx], not_mem_of_strrchr_none c xs hxs, by simp [h]⟩
      · simp [hx] at h

theorem filename_is_base_name (path : CStr) : is_base_name path (filename path) := by
  unfold filename filename_off PATH_SEPARATOR
  cases h : strrchr path '/' with
  | none =>
    right
    exact ⟨not_mem_of_strrchr_none _ _ h, by simp⟩
  | some i =>
    left
    obtain ⟨pre, post, e, hn, hl⟩ := strrchr_some_split _ _ _ h
    refine ⟨pre, ?_, ?_⟩
    · subst hl
      simp [e]
    · subst hl
      simpa [e] using hn

theorem strip_extension_is_stem (name : CStr) :
    is_stem name (match file_extension_off name with
      | some extension => strndup name (extension - 1)
      | none => name) := by
  unfold file_extension_off strndup
  cases h : strrchr name '.' with
  | none =>
    right
    exact ⟨not_mem_of_strrchr_none _ _ h, rfl⟩
  | some i =>
    left
    obtain ⟨pre, post, e, hn, hl⟩ := strrchr_some_split _ _ _ h
    subst hl
    refine ⟨post, ?_, hn⟩
    simp [e]

/-! ## Lemmas on the output streams -/

theorem stream_end_data (d : List Char) : (stream_end d).data = d := rfl

theorem at_end_stream_end (d : List Char) : at_end (stream_end d) := rfl

theorem eq_stream_end (f : stream) (h : at_end f) : f = stream_end f.data := by
  cases f
  simp only [at_end] at h
  simp [stream_end, h]

theorem outputs_eq_stream_end (st : outputs) (hh : at_end st.header) (hs : at_end st.source) :
    st = outputs.mk (stream_end st.header.data) (stream_end st.source.data) st.stdout := by
  cases st
  simp only [outputs.mk.injEq, and_true]
  exact ⟨eq_stream_end _ hh, eq_stream_end _ hs⟩

theorem fputs_end (d s : List Char) : fputs (stream_end d) s = stream_end (d ++ s) := by
  simp [fputs, stream_end]

theorem fputs_back1 (x : List Char) (c : Char) (s : CStr) (hs : 1 ≤ s.length) :
    fputs (fseek_back1 (stream_end (x ++ [c]))) s = stream_end (x ++ s) := by
  have h2 : List.drop (x.length + s.length) (x ++ [c]) = [] := by
    apply List.drop_eq_nil_of_le
    simp only [List.length_append, List.length_singleton]
    omega
  have h3 : List.take x.length (x ++ [c]) = x := List.take_left' rfl
  simp only [fseek_back1, fputs, stream_end]
  rw [if_neg (by simp)]
  simp only [List.length_append, List.length_singleton, Nat.add_sub_cancel, h2, h3,
    List.append_nil]

/-! ## Lemmas on the conversions -/

set_option maxRecDepth 100000 in
theorem fmt_02x_eq : ∀ v : Nat, v < 256 → "0x".toList ++ fmt_02x v = byte_literal v := by
  decide

theorem and_ff_to_char (b : byte) : and_ff (to_char b) = b.val := by
  unfold and_ff to_char
  have hb := b.isLt
  split <;> omega

theorem fread_literal (b : byte) :
    "0x".toList ++ fmt_02x (and_ff (to_char b)) ++ ",".toList = byte_literal b.val ++ [','] := by
  rw [and_ff_to_char, fmt_02x_eq b.val b.isLt]
  rfl

set_option maxRecDepth 100000 in
theorem read_byte_literal_byte_literal : ∀ v : Nat, v < 256 →
    read_byte_literal (byte_literal v) = some v := by
  decide

set_option maxRecDepth 100000 in
theorem comma_not_mem_byte_literal : ∀ v : Nat, v < 256 → ',' ∉ byte_literal v := by
  decide

set_option maxRecDepth 100000 in
theorem brace_not_mem_byte_literal : ∀ v : Nat, v < 256 →
    '\x7b' ∉ byte_literal v ∧ '\x7d' ∉ byte_literal v := by
  decide

/-- The text the `fread` loop writes for the bytes `bs`: each literal and a comma. -/
theorem fread_loop_none (bs : List byte) : ∀ d : List Char,
    fread_loop bs none (stream_end d) =
      (stream_end (d ++ bs.flatMap (fun b => byte_literal b.val ++ [','])), true) := by
  induction bs with
  | nil => intro d; simp [fread_loop]
  | cons b bs ih =>
    intro d
    have e := fread_literal b
    simp only [List.append_assoc] at e
    simp only [fread_loop, Option.map_none', fputs_end, ih, List.flatMap_cons,
      List.append_assoc, e]

theorem fread_loop_some_ok (bs : List byte) : ∀ (k : Nat) (src : stream),
    bs.length < k → fread_loop bs (some k) src = fread_loop bs none src := by
  induction bs with
  | nil =>
    intro k src h
    cases k with
    | zero => simp at h
    | succ k => simp [fread_loop]
  | cons b bs ih =>
    intro k src h
    cases k with
    | zero => simp at h
    | succ k =>
      simp only [List.length_cons, Nat.add_lt_add_iff_right] at h
      simp only [fread_loop, Option.map_some', Option.map_none', Nat.add_sub_cancel]
      exact ih k _ h

theorem fread_loop_some_err (bs : List byte) : ∀ (k : Nat) (src : stream),
    k ≤ bs.length → (fread_loop bs (some k) src).2 = false := by
  induction bs with
  | nil =>
    intro k src h
    simp only [List.length_nil, Nat.le_zero] at h
    subst h
    simp [fread_loop]
  | cons b bs ih =>
    intro k src h
    cases k with
    | zero => simp [fread_loop]
    | succ k =>
      simp only [List.length_cons, Nat.add_le_add_iff_right] at h
      simp only [fread_loop, Option.map_some', Nat.add_sub_cancel]
      exact ih k _ h

theorem fread_loop_reads_to_end (f : regfile) (src : stream) (h : reads_to_end f = true) :
    fread_loop f.bytes f.fread_error src = fread_loop f.bytes none src := by
  unfold reads_to_end at h
  cases he : f.fread_error with
  | none => rfl
  | some k =>
    rw [he] at h
    exact fread_loop_some_ok _ _ _ (by simpa using h)

theorem fread_loop_not_reads_to_end (f : regfile) (src : stream) (h : reads_to_end f = false) :
    (fread_loop f.bytes f.fread_error src).2 = false := by
  unfold reads_to_end at h
  cases he : f.fread_error with
  | none => rw [he] at h; simp at h
  | some k =>
    rw [he] at h
    exact fread_loop_some_err _ _ _ (by simpa using h)

theorem bind_comma_eq (f : byte → CStr) : ∀ (bs : List byte) (last : CStr),
    bs.flatMap (fun b => f b ++ [',']) ++ last = List.intercalate [','] (bs.map f ++ [last]) := by
  intro bs
  induction bs with
  | nil => intro last; simp [List.intercalate]
  | cons b bs ih =>
    intro last
    have h := ih last
    cases bs with
    | nil => simp [List.intercalate, List.intersperse]
    | cons b2 bs2 =>
      simp only [List.map_cons, List.cons_append] at h
      rw [List.flatMap_cons, List.append_assoc, h]
      simp [List.intercalate, List.intersperse]

theorem bind_comma_snoc (f : byte → CStr) (bs : List byte) (b : byte) :
    (bs ++ [b]).flatMap (fun b => f b ++ [',']) =
      List.intercalate [','] ((bs ++ [b]).map f) ++ [','] := by
  have h := bind_comma_eq f bs (f b)
  simp only [List.flatMap_append, List.flatMap_cons, List.flatMap_nil, List.append_nil, List.map_append,
    List.map_cons, List.map_nil]
  rw [← h]
  simp

theorem print_declaration_eq (d : List Char) (type : res_type) (pfx : Option CStr)
    (name : CStr) (size : Nat) :
    print_declaration (stream_end d) type pfx name size =
      stream_end (d ++ ("const char ".toList ++ declared_name pfx name ++ "[".toList ++
          size_expr size (decide (type = res_type.RES_TYPE_TEXT)) ++ "]".toList)) := by
  cases type <;> cases pfx <;>
    simp [print_declaration, fputs_end, declared_name, size_expr]

/-! ## What `process_file` writes -/

theorem stat_eq_iff (a b : stat) : (a.st_dev = b.st_dev ∧ a.st_ino = b.st_ino) ↔ a = b := by
  cases a; cases b; simp

theorem snoc_of_ne_nil {α : Type} : ∀ l : List α, l ≠ [] → ∃ x y, l = x ++ [y] := by
  intro l h
  exact ⟨l.dropLast, l.getLast h, (List.dropLast_append_getLast h).symm⟩

/-- The emitter on a file that passes the guard, is not empty and is read to its end. -/
theorem process_file_emit (ctx : context) (dirpath name : CStr) (pfx : Option CStr)
    (f : regfile) (h s o : List Char)
    (hg : output_file_guard ctx name f = guard_result.pass) (hne : f.bytes ≠ [])
    (hr : reads_to_end f = true) :
    process_file ctx dirpath name pfx (some f)
        { header := stream_end h, source := stream_end s, stdout := o } =
      .ok { header := stream_end (h ++ declaration_line (declared_name pfx (str_santize name))
              f.bytes.length (file_is_text ctx.text_extension name)),
            source := stream_end (s ++ definition_line (declared_name pfx (str_santize name))
              f.bytes (file_is_text ctx.text_extension name)),
            stdout := o } := by
  have hlen : ¬ f.bytes.length = 0 := by
    intro h0
    exact hne (List.length_eq_zero.1 h0)
  simp only [process_file, hg, file_size, hlen, if_false, fputs_end, print_declaration_eq,
    fread_loop_reads_to_end f _ hr, fread_loop_none]
  cases ht : file_is_text ctx.text_extension name with
  | true =>
    simp only [if_true, fputs_end, decide_True, declaration_line, definition_line, byte_list,
      List.append_assoc]
    rw [← bind_comma_eq]
    simp
  | false =>
    obtain ⟨x, y, hxy⟩ := snoc_of_ne_nil f.bytes hne
    simp only [Bool.false_eq_true, if_false, declaration_line, definition_line, byte_list,
      List.append_assoc, List.append_nil, hxy, bind_comma_snoc]
    simp only [← List.append_assoc]
    rw [fputs_back1 _ _ _ (by decide)]
    simp

theorem process_file_read_error (ctx : context) (dirpath name : CStr) (pfx : Option CStr)
    (f : regfile) (st : outputs)
    (hg : output_file_guard ctx name f = guard_result.pass) (hne : f.bytes ≠ [])
    (hr : reads_to_end f = false) :
    ∃ st1, process_file ctx dirpath name pfx (some f) st = .error st1 := by
  have hlen : ¬ f.bytes.length = 0 := by
    intro h0
    exact hne (List.length_eq_zero.1 h0)
  simp only [process_file, hg, file_size, hlen, if_false]
  split
  · exact ⟨_, rfl⟩
  · rename_i heq
    have h2 := congrArg Prod.snd heq
    rw [fread_loop_not_reads_to_end f _ hr] at h2
    simp at h2

/-! ## The text the walk writes -/

theorem intercalate_cons_cons {α : Type} (sep a b : List α) (l : List (List α)) :
    List.intercalate sep (a :: b :: l) = a ++ sep ++ List.intercalate sep (b :: l) := by
  simp [List.intercalate, List.intersperse]

theorem array_name_nil (pfx : Option CStr) (name : CStr) :
    array_name pfx [] name = declared_name pfx (str_santize name) := by
  cases pfx <;> simp [array_name, declared_name, List.intercalate, List.intersperse]

theorem array_name_cons (pfx : Option CStr) (d_name : CStr) (dirs : List CStr) (name : CStr) :
    array_name pfx (d_name :: dirs) name = array_name (some (sub_namespace pfx d_name)) dirs name := by
  cases pfx with
  | none => simp [array_name, sub_namespace]
  | some p =>
    cases dirs with
    | nil =>
      simp [array_name, sub_namespace, List.intercalate, List.intersperse]
    | cons d ds =>
      simp only [array_name, sub_namespace, Option.toList_some, List.map_cons,
        List.singleton_append, List.cons_append, List.nil_append]
      rw [intercalate_cons_cons, intercalate_cons_cons, intercalate_cons_cons]
      simp

theorem header_text_nil (ctx : context) (gp : Option CStr) : header_text ctx gp [] = [] := rfl

theorem source_text_nil (ctx : context) (gp : Option CStr) : source_text ctx gp [] = [] := rfl

theorem header_text_append (ctx : context) (gp : Option CStr) (a b : List resource) :
    header_text ctx gp (a ++ b) = header_text ctx gp a ++ header_text ctx gp b := by
  simp [header_text]

theorem source_text_append (ctx : context) (gp : Option CStr) (a b : List resource) :
    source_text ctx gp (a ++ b) = source_text ctx gp a ++ source_text ctx gp b := by
  simp [source_text]

theorem header_text_cons (ctx : context) (gp : Option CStr) (r : resource) (rs : List resource) :
    header_text ctx gp (r :: rs) =
      (if emitted ctx r then resource_declaration ctx gp r else []) ++ header_text ctx gp rs := by
  by_cases h : emitted ctx r = true <;> simp [header_text, List.filter_cons, h]

theorem source_text_cons (ctx : context) (gp : Option CStr) (r : resource) (rs : List resource) :
    source_text ctx gp (r :: rs) =
      (if emitted ctx r then resource_definition ctx gp r else []) ++ source_text ctx gp rs := by
  by_cases h : emitted ctx r = true <;> simp [source_text, List.filter_cons, h]

theorem emitted_with_dirs (ctx : context) (r : resource) (ds : List CStr) :
    emitted ctx { r with dirs := ds } = emitted ctx r := rfl

theorem header_text_map_dirs (ctx : context) (pfx : Option CStr) (d_name : CStr) :
    ∀ rs : List resource,
      header_text ctx pfx (rs.map (fun r => { r with dirs := d_name :: r.dirs })) =
        header_text ctx (some (sub_namespace pfx d_name)) rs := by
  intro rs
  induction rs with
  | nil => rfl
  | cons r rs ih =>
    simp only [List.map_cons, header_text_cons, ih, emitted_with_dirs]
    congr 1
    simp only [resource_declaration, resource_bytes, array_name_cons]

theorem source_text_map_dirs (ctx : context) (pfx : Option CStr) (d_name : CStr) :
    ∀ rs : List resource,
      source_text ctx pfx (rs.map (fun r => { r with dirs := d_name :: r.dirs })) =
        source_text ctx (some (sub_namespace pfx d_name)) rs := by
  intro rs
  induction rs with
  | nil => rfl
  | cons r rs ih =>
    simp only [List.map_cons, source_text_cons, ih, emitted_with_dirs]
    congr 1
    simp only [resource_definition, resource_bytes, array_name_cons]

/-- What a successful call of `process_file` leaves in the two artifacts. -/
theorem process_file_ok (ctx : context) (dirpath name : CStr) (pfx : Option CStr)
    (fo : Option regfile) (h s o : List Char) (st1 : outputs)
    (hok : process_file ctx dirpath name pfx fo
      { header := stream_end h, source := stream_end s, stdout := o } = .ok st1) :
    ∃ o1, st1 =
      { header := stream_end (h ++ header_text ctx pfx [{ dirs := [], name := name, file := fo }]),
        source := stream_end (s ++ source_text ctx pfx [{ dirs := [], name := name, file := fo }]),
        stdout := o1 } := by
  cases fo with
  | none => simp [process_file] at hok
  | some f =>
    simp only [header_text_cons, source_text_cons, header_text_nil, source_text_nil,
      List.append_nil, emitted, resource_declaration, resource_definition, resource_bytes,
      array_name_nil]
    cases hg : output_file_guard ctx name f with
    | failed => simp [process_file, hg] at hok
    | skip =>
      simp only [process_file, hg, Except.ok.injEq] at hok
      subst hok
      exact ⟨o, by simp⟩
    | pass =>
      by_cases hne : f.bytes = []
      · simp only [process_file, hg, file_size, hne, List.length_nil, if_true,
          Except.ok.injEq] at hok
        subst hok
        refine ⟨o ++ "Ignoring empty file '".toList ++ (dirpath ++ [PATH_SEPARATOR] ++ name) ++
          "'\n".toList, ?_⟩
        simp only [hne, ne_eq, not_true_eq_false, and_false, decide_False, Bool.false_eq_true,
          if_false, List.append_nil]
      · cases hr : reads_to_end f with
        | false =>
          obtain ⟨st2, h2⟩ := process_file_read_error ctx dirpath name pfx f
            { header := stream_end h, source := stream_end s, stdout := o } hg hne hr
          rw [h2] at hok
          simp at hok
        | true =>
          rw [process_file_emit ctx dirpath name pfx f h s o hg hne hr] at hok
          simp only [Except.ok.injEq] at hok
          subst hok
          exact ⟨o, by simp [hne]⟩

/-- What a successful first loop of `process_dir` leaves in the two artifacts. -/
theorem process_dir_files_ok (ctx : context) (dirpath : CStr) (pfx : Option CStr) :
    ∀ (es : List dirent) (h s o : List Char) (st1 : outputs),
      process_dir_files ctx dirpath pfx es
        { header := stream_end h, source := stream_end s, stdout := o } = .ok st1 →
      ∃ o1, st1 =
        { header := stream_end (h ++ header_text ctx pfx (entries_files es)),
          source := stream_end (s ++ source_text ctx pfx (entries_files es)),
          stdout := o1 } := by
  intro es
  induction es with
  | nil =>
    intro h s o st1 hok
    simp only [process_dir_files, Except.ok.injEq] at hok
    subst hok
    exact ⟨o, by simp [entries_files, header_text_nil, source_text_nil]⟩
  | cons e es ih =>
    intro h s o st1 hok
    cases e with
    | DT_REG d_name f =>
      simp only [process_dir_files] at hok
      cases hp : process_file ctx dirpath d_name pfx f
          { header := stream_end h, source := stream_end s, stdout := o } with
      | error st2 => rw [hp] at hok; simp at hok
      | ok st2 =>
        rw [hp] at hok
        obtain ⟨o2, rfl⟩ := process_file_ok ctx dirpath d_name pfx f h s o st2 hp
        obtain ⟨o3, rfl⟩ := ih _ _ _ _ hok
        refine ⟨o3, ?_⟩
        have e1 := header_text_append ctx pfx [{ dirs := [], name := d_name, file := f }]
          (entries_files es)
        have e2 := source_text_append ctx pfx [{ dirs := [], name := d_name, file := f }]
          (entries_files es)
        simp only [List.singleton_append] at e1 e2
        simp only [entries_files, e1, e2, List.append_assoc]
    | DT_DIR d_name ok entries =>
      simp only [process_dir_files] at hok
      simpa only [entries_files] using ih _ _ _ _ hok
    | DT_OTHER d_name =>
      simp only [process_dir_files] at hok
      simpa only [entries_files] using ih _ _ _ _ hok

mutual
/-- What a successful call of `process_dir` leaves in the two artifacts. -/
theorem process_dir_ok (ctx : context) : ∀ (d : dirent) (dirpath : CStr) (pfx : Option CStr)
    (h s o : List Char) (st1 : outputs),
    process_dir ctx dirpath pfx d
      { header := stream_end h, source := stream_end s, stdout := o } = .ok st1 →
    ∃ o1, st1 =
      { header := stream_end (h ++ header_text ctx pfx (dirent_resources d)),
        source := stream_end (s ++ source_text ctx pfx (dirent_resources d)),
        stdout := o1 }
  | dirent.DT_DIR _ true entries, dirpath, pfx, h, s, o, st1, hok => by
    simp only [process_dir] at hok
    cases hf : process_dir_files ctx dirpath pfx entries
        { header := stream_end h, source := stream_end s, stdout := o } with
    | error st2 => rw [hf] at hok; simp at hok
    | ok st2 =>
      rw [hf] at hok
      obtain ⟨o2, rfl⟩ := process_dir_files_ok ctx dirpath pfx entries h s o st2 hf
      obtain ⟨o3, rfl⟩ := process_dir_subdirs_ok ctx entries dirpath pfx _ _ _ _ hok
      exact ⟨o3, by simp only [dirent_resources, header_text_append, source_text_append,
        List.append_assoc]⟩
  | dirent.DT_DIR _ false _, _, _, _, _, _, _, hok => by simp [process_dir] at hok
  | dirent.DT_REG _ _, _, _, _, _, _, _, hok => by simp [process_dir] at hok
  | dirent.DT_OTHER _, _, _, _, _, _, _, hok => by simp [process_dir] at hok
/-- What a successful second loop of `process_dir` leaves in the two artifacts. -/
theorem process_dir_subdirs_ok (ctx : context) : ∀ (es : List dirent) (dirpath : CStr)
    (pfx : Option CStr) (h s o : List Char) (st1 : outputs),
    process_dir_subdirs ctx dirpath pfx es
      { header := stream_end h, source := stream_end s, stdout := o } = .ok st1 →
    ∃ o1, st1 =
      { header := stream_end (h ++ header_text ctx pfx (subdirs_resources es)),
        source := stream_end (s ++ source_text ctx pfx (subdirs_resources es)),
        stdout := o1 }
  | [], _, _, h, s, o, st1, hok => by
    simp only [process_dir_subdirs, Except.ok.injEq] at hok
    subst hok
    exact ⟨o, by simp [subdirs_resources, header_text_nil, source_text_nil]⟩
  | dirent.DT_DIR d_name ok entries :: es, dirpath, pfx, h, s, o, st1, hok => by
    simp only [process_dir_subdirs] at hok
    by_cases hdot : d_name = ".".toList ∨ d_name = "..".toList
    · rw [if_pos hdot] at hok
      obtain ⟨o3, rfl⟩ := process_dir_subdirs_ok ctx es dirpath pfx h s o st1 hok
      exact ⟨o3, by simp only [subdirs_resources, if_pos hdot, List.nil_append]⟩
    · rw [if_neg hdot] at hok
      have hns : ∀ q : Option CStr, (match q with
          | some p => p ++ "_".toList ++ str_santize d_name
          | none => str_santize d_name) = sub_namespace q d_name := fun _ => rfl
      rw [hns pfx] at hok
      cases hp : process_dir ctx (dirpath ++ [PATH_SEPARATOR] ++ d_name)
          (some (sub_namespace pfx d_name)) (dirent.DT_DIR d_name ok entries)
          { header := stream_end h, source := stream_end s, stdout := o } with
      | error st2 => rw [hp] at hok; simp at hok
      | ok st2 =>
        rw [hp] at hok
        obtain ⟨o2, rfl⟩ := process_dir_ok ctx (dirent.DT_DIR d_name ok entries) _ _ h s o st2 hp
        obtain ⟨o3, rfl⟩ := process_dir_subdirs_ok ctx es dirpath pfx _ _ _ _ hok
        exact ⟨o3, by simp only [subdirs_resources, if_neg hdot, header_text_append,
          source_text_append, header_text_map_dirs, source_text_map_dirs, List.append_assoc]⟩
  | dirent.DT_REG _ _ :: es, dirpath, pfx, h, s, o, st1, hok => by
    simp only [process_dir_subdirs] at hok
    simpa only [subdirs_resources] using process_dir_subdirs_ok ctx es dirpath pfx h s o st1 hok
  | dirent.DT_OTHER _ :: es, dirpath, pfx, h, s, o, st1, hok => by
    simp only [process_dir_subdirs] at hok
    simpa only [subdirs_resources] using process_dir_subdirs_ok ctx es dirpath pfx h s o st1 hok
end

/-! ## Unfolding the two loops of `process_dir` -/

theorem process_dir_files_append (ctx : context) (dirpath : CStr) (pfx : Option CStr) :
    ∀ (pre post : List dirent) (st : outputs),
      process_dir_files ctx dirpath pfx (pre ++ post) st =
        match process_dir_files ctx dirpath pfx pre st with
        | .ok s => process_dir_files ctx dirpath pfx post s
        | .error s => .error s := by
  intro pre
  induction pre with
  | nil => intro post st; simp [process_dir_files]
  | cons e es ih =>
    intro post st
    cases e with
    | DT_REG name f =>
      simp only [List.cons_append, process_dir_files]
      cases process_file ctx dirpath name pfx f st with
      | ok s => exact ih post s
      | error s => rfl
    | DT_DIR n ok sub =>
      simp only [List.cons_append, process_dir_files]
      exact ih post st
    | DT_OTHER n =>
      simp only [List.cons_append, process_dir_files]
      exact ih post st

theorem process_dir_subdirs_cons_dir (ctx : context) (dirpath : CStr) (pfx : Option CStr)
    (n : CStr) (ok : Bool) (sub es : List dirent) (st : outputs) :
    process_dir_subdirs ctx dirpath pfx (dirent.DT_DIR n ok sub :: es) st =
      if n = ".".toList ∨ n = "..".toList then process_dir_subdirs ctx dirpath pfx es st
      else
        match process_dir ctx (dirpath ++ [PATH_SEPARATOR] ++ n) (some (sub_namespace pfx n))
          (dirent.DT_DIR n ok sub) st with
        | .ok s => process_dir_subdirs ctx dirpath pfx es s
        | .error s => .error s := by
  rw [process_dir_subdirs]
  rfl

theorem process_dir_dir_true (ctx : context) (dirpath : CStr) (pfx : Option CStr)
    (n : CStr) (entries : List dirent) (st : outputs) :
    process_dir ctx dirpath pfx (dirent.DT_DIR n true entries) st =
      match process_dir_files ctx dirpath pfx entries st with
      | .error st1 => .error st1
      | .ok st1 => process_dir_subdirs ctx dirpath pfx entries st1 := by
  rw [process_dir]

theorem process_dir_subdirs_append (ctx : context) (dirpath : CStr) (pfx : Option CStr) :
    ∀ (pre post : List dirent) (st : outputs),
      process_dir_subdirs ctx dirpath pfx (pre ++ post) st =
        match process_dir_subdirs ctx dirpath pfx pre st with
        | .ok s => process_dir_subdirs ctx dirpath pfx post s
        | .error s => .error s := by
  intro pre
  induction pre with
  | nil => intro post st; simp [process_dir_subdirs]
  | cons e es ih =>
    intro post st
    cases e with
    | DT_REG name f =>
      simp only [List.cons_append, process_dir_subdirs]
      exact ih post st
    | DT_DIR n ok sub =>
      simp only [List.cons_append, process_dir_subdirs_cons_dir]
      by_cases hdot : n = ".".toList ∨ n = "..".toList
      · simp only [if_pos hdot]
        exact ih post st
      · simp only [if_neg hdot]
        cases process_dir ctx (dirpath ++ [PATH_SEPARATOR] ++ n) (some (sub_namespace pfx n))
            (dirent.DT_DIR n ok sub) st with
        | ok s => exact ih post s
        | error s => rfl
    | DT_OTHER n =>
      simp only [List.cons_append, process_dir_subdirs]
      exact ih post st

/-! ## The text a failing walk writes -/

theorem fread_loop_some_partial (bs : List byte) : ∀ (k : Nat) (d : List Char),
    k ≤ bs.length →
    fread_loop bs (some k) (stream_end d) =
      (stream_end (d ++ (bs.take k).flatMap (fun b => byte_literal b.val ++ [','])), false) := by
  induction bs with
  | nil =>
    intro k d h
    simp only [List.length_nil, Nat.le_zero] at h
    subst h
    simp [fread_loop]
  | cons b bs ih =>
    intro k d h
    cases k with
    | zero => simp [fread_loop]
    | succ k =>
      simp only [List.length_cons, Nat.add_le_add_iff_right] at h
      have e := fread_literal b
      simp only [List.append_assoc] at e
      simp only [fread_loop, Option.map_some', Nat.add_sub_cancel, fputs_end, List.append_assoc,
        e, ih k _ h, List.take_succ_cons, List.flatMap_cons]

theorem interrupted_nil (ctx : context) (gp : Option CStr) (rest : List resource) :
    interrupted ctx gp rest [] [] := Or.inl ⟨rfl, rfl⟩

theorem interrupted_append (ctx : context) (gp : Option CStr) (rest more : List resource)
    (hx sx : CStr) (h : interrupted ctx gp rest hx sx) :
    interrupted ctx gp (rest ++ more) hx sx := by
  rcases h with h | ⟨r, rest1, k, e, h1, h2, h3⟩
  · exact Or.inl h
  · exact Or.inr ⟨r, rest1 ++ more, k, by simp [e], h1, h2, h3⟩

theorem interrupted_map_dirs (ctx : context) (pfx : Option CStr) (d_name : CStr)
    (rest : List resource) (hx sx : CStr)
    (h : interrupted ctx (some (sub_namespace pfx d_name)) rest hx sx) :
    interrupted ctx pfx (rest.map (fun r => { r with dirs := d_name :: r.dirs })) hx sx := by
  rcases h with h | ⟨r, rest1, k, e, h1, h2, h3⟩
  · exact Or.inl h
  · refine Or.inr ⟨{ r with dirs := d_name :: r.dirs },
      rest1.map (fun r => { r with dirs := d_name :: r.dirs }), k, by simp [e], h1, ?_, ?_⟩
    · rw [h2]
      simp only [resource_declaration, resource_bytes, array_name_cons]
    · rw [h3]
      simp only [resource_bytes, array_name_cons]

/-- What a failing call of `process_file` leaves in the two artifacts. -/
theorem process_file_error (ctx : context) (dirpath name : CStr) (pfx : Option CStr)
    (fo : Option regfile) (h s o : List Char) (st1 : outputs)
    (herr : process_file ctx dirpath name pfx fo
      { header := stream_end h, source := stream_end s, stdout := o } = .error st1) :
    ∃ hx sx, st1 =
        { header := stream_end (h ++ hx), source := stream_end (s ++ sx), stdout := o } ∧
      interrupted ctx pfx [{ dirs := [], name := name, file := fo }] hx sx := by
  cases fo with
  | none =>
    simp only [process_file, Except.error.injEq] at herr
    subst herr
    exact ⟨[], [], by simp, interrupted_nil _ _ _⟩
  | some f =>
    cases hg : output_file_guard ctx name f with
    | failed =>
      simp only [process_file, hg, Except.error.injEq] at herr
      subst herr
      exact ⟨[], [], by simp, interrupted_nil _ _ _⟩
    | skip => simp [process_file, hg] at herr
    | pass =>
      by_cases hne : f.bytes = []
      · simp [process_file, hg, file_size, hne] at herr
      · cases hr : reads_to_end f with
        | true =>
          rw [process_file_emit ctx dirpath name pfx f h s o hg hne hr] at herr
          simp at herr
        | false =>
          have hlen : ¬ f.bytes.length = 0 := fun h0 => hne (List.length_eq_zero.1 h0)
          obtain ⟨k, hk, hle⟩ : ∃ k, f.fread_error = some k ∧ k ≤ f.bytes.length := by
            unfold reads_to_end at hr
            cases he : f.fread_error with
            | none => rw [he] at hr; simp at hr
            | some k =>
              rw [he] at hr
              exact ⟨k, rfl, by simpa using hr⟩
          simp only [process_file, hg, file_size, hlen, if_false, fputs_end,
            print_declaration_eq, hk, fread_loop_some_partial f.bytes k _ hle,
            Except.error.injEq] at herr
          subst herr
          refine ⟨resource_declaration ctx pfx { dirs := [], name := name, file := some f },
            definition_start (array_name pfx [] name) f.bytes
              (file_is_text ctx.text_extension name) k, ?_,
            Or.inr ⟨_, [], k, rfl, ?_, rfl, rfl⟩⟩
          · cases ht : file_is_text ctx.text_extension name <;>
              simp [resource_declaration, resource_bytes, array_name_nil, declaration_line,
                definition_start, ht]
          · simp [emitted, hg, hne]

/-- What a failing first loop of `process_dir` leaves in the two artifacts. -/
theorem process_dir_files_error (ctx : context) (dirpath : CStr) (pfx : Option CStr) :
    ∀ (es : List dirent) (h s o : List Char) (st1 : outputs),
      process_dir_files ctx dirpath pfx es
        { header := stream_end h, source := stream_end s, stdout := o } = .error st1 →
      ∃ pre rest hx sx o1, entries_files es = pre ++ rest ∧
        st1 = { header := stream_end (h ++ (header_text ctx pfx pre ++ hx)),
                source := stream_end (s ++ (source_text ctx pfx pre ++ sx)),
                stdout := o1 } ∧
        interrupted ctx pfx rest hx sx := by
  intro es
  induction es with
  | nil => intro h s o st1 herr; simp [process_dir_files] at herr
  | cons e es ih =>
    intro h s o st1 herr
    cases e with
    | DT_REG d_name f =>
      simp only [process_dir_files] at herr
      cases hp : process_file ctx dirpath d_name pfx f
          { header := stream_end h, source := stream_end s, stdout := o } with
      | error st2 =>
        rw [hp] at herr
        simp only [Except.error.injEq] at herr
        subst herr
        obtain ⟨hx, sx, rfl, hi⟩ := process_file_error ctx dirpath d_name pfx f h s o st2 hp
        refine ⟨[], entries_files (dirent.DT_REG d_name f :: es), hx, sx, o, rfl, ?_, ?_⟩
        · simp [header_text_nil, source_text_nil]
        · exact interrupted_append ctx pfx _ (entries_files es) hx sx hi
      | ok st2 =>
        rw [hp] at herr
        obtain ⟨o2, rfl⟩ := process_file_ok ctx dirpath d_name pfx f h s o st2 hp
        obtain ⟨pre, rest, hx, sx, o3, e1, rfl, hi⟩ := ih _ _ _ _ herr
        refine ⟨{ dirs := [], name := d_name, file := f } :: pre, rest, hx, sx, o3, ?_, ?_, hi⟩
        · simp [entries_files, e1]
        · have e2 := header_text_append ctx pfx [{ dirs := [], name := d_name, file := f }] pre
          have e3 := source_text_append ctx pfx [{ dirs := [], name := d_name, file := f }] pre
          simp only [List.singleton_append] at e2 e3
          simp only [e2, e3, List.append_assoc]
    | DT_DIR d_name ok entries =>
      simp only [process_dir_files] at herr
      simpa only [entries_files] using ih _ _ _ _ herr
    | DT_OTHER d_name =>
      simp only [process_dir_files] at herr
      simpa only [entries_files] using ih _ _ _ _ herr

mutual
/-- What a failing call of `process_dir` leaves in the two artifacts: the lines of the
files of an initial part of the walk and, when the emitter failed while reading, the start
of the entry of the next file. -/
theorem process_dir_error (ctx : context) : ∀ (d : dirent) (dirpath : CStr)
    (pfx : Option CStr) (h s o : List Char) (st1 : outputs),
    process_dir ctx dirpath pfx d
      { header := stream_end h, source := stream_end s, stdout := o } = .error st1 →
    ∃ pre rest hx sx o1, dirent_resources d = pre ++ rest ∧
      st1 = { header := stream_end (h ++ (header_text ctx pfx pre ++ hx)),
              source := stream_end (s ++ (source_text ctx pfx pre ++ sx)),
              stdout := o1 } ∧
      interrupted ctx pfx rest hx sx
  | dirent.DT_DIR n true entries, dirpath, pfx, h, s, o, st1, herr => by
    rw [process_dir_dir_true] at herr
    cases hf : process_dir_files ctx dirpath pfx entries
        { header := stream_end h, source := stream_end s, stdout := o } with
    | error st2 =>
      rw [hf] at herr
      simp only [Except.error.injEq] at herr
      subst herr
      obtain ⟨pre, rest, hx, sx, o1, e1, rfl, hi⟩ :=
        process_dir_files_error ctx dirpath pfx entries h s o st2 hf
      exact ⟨pre, rest ++ subdirs_resources entries, hx, sx, o1,
        by simp [dirent_resources, e1], rfl, interrupted_append _ _ _ _ _ _ hi⟩
    | ok st2 =>
      rw [hf] at herr
      simp only [] at herr
      obtain ⟨o2, rfl⟩ := process_dir_files_ok ctx dirpath pfx entries h s o st2 hf
      obtain ⟨pre, rest, hx, sx, o1, e1, rfl, hi⟩ :=
        process_dir_subdirs_error ctx entries dirpath pfx _ _ _ _ herr
      exact ⟨entries_files entries ++ pre, rest, hx, sx, o1,
        by simp [dirent_resources, e1],
        by simp only [header_text_append, source_text_append, List.append_assoc], hi⟩
  | dirent.DT_DIR _ false _, _, _, h, s, o, st1, herr => by
    simp only [process_dir, Except.error.injEq] at herr
    subst herr
    exact ⟨[], _, [], [], o, rfl, by simp [header_text_nil, source_text_nil],
      interrupted_nil _ _ _⟩
  | dirent.DT_REG _ _, _, _, h, s, o, st1, herr => by
    simp only [process_dir, Except.error.injEq] at herr
    subst herr
    exact ⟨[], _, [], [], o, rfl, by simp [header_text_nil, source_text_nil],
      interrupted_nil _ _ _⟩
  | dirent.DT_OTHER _, _, _, h, s, o, st1, herr => by
    simp only [process_dir, Except.error.injEq] at herr
    subst herr
    exact ⟨[], _, [], [], o, rfl, by simp [header_text_nil, source_text_nil],
      interrupted_nil _ _ _⟩
/-- What a failing second loop of `process_dir` leaves in the two artifacts. -/
theorem process_dir_subdirs_error (ctx : context) : ∀ (es : List dirent) (dirpath : CStr)
    (pfx : Option CStr) (h s o : List Char) (st1 : outputs),
    process_dir_subdirs ctx dirpath pfx es
      { header := stream_end h, source := stream_end s, stdout := o } = .error st1 →
    ∃ pre rest hx sx o1, subdirs_resources es = pre ++ rest ∧
      st1 = { header := stream_end (h ++ (header_text ctx pfx pre ++ hx)),
              source := stream_end (s ++ (source_text ctx pfx pre ++ sx)),
              stdout := o1 } ∧
      interrupted ctx pfx rest hx sx
  | [], _, _, _, _, _, _, herr => by simp [process_dir_subdirs] at herr
  | dirent.DT_DIR d_name ok entries :: es, dirpath, pfx, h, s, o, st1, herr => by
    rw [process_dir_subdirs_cons_dir] at herr
    by_cases hdot : d_name = ".".toList ∨ d_name = "..".toList
    · rw [if_pos hdot] at herr
      obtain ⟨pre, rest, hx, sx, o1, e1, rfl, hi⟩ :=
        process_dir_subdirs_error ctx es dirpath pfx h s o st1 herr
      exact ⟨pre, rest, hx, sx, o1,
        by simp only [subdirs_resources, if_pos hdot, List.nil_append, e1], rfl, hi⟩
    · rw [if_neg hdot] at herr
      cases hp : process_dir ctx (dirpath ++ [PATH_SEPARATOR] ++ d_name)
          (some (sub_namespace pfx d_name)) (dirent.DT_DIR d_name ok entries)
          { header := stream_end h, source := stream_end s, stdout := o } with
      | error st2 =>
        rw [hp] at herr
        simp only [Except.error.injEq] at herr
        subst herr
        obtain ⟨pre, rest, hx, sx, o1, e1, rfl, hi⟩ :=
          process_dir_error ctx (dirent.DT_DIR d_name ok entries) _ _ h s o st2 hp
        refine ⟨pre.map (fun r => { r with dirs := d_name :: r.dirs }),
          rest.map (fun r => { r with dirs := d_name :: r.dirs }) ++ subdirs_resources es,
          hx, sx, o1, ?_, ?_, ?_⟩
        · simp only [subdirs_resources, if_neg hdot, e1, List.map_append, List.append_assoc]
        · simp only [header_text_map_dirs, source_text_map_dirs]
        · exact interrupted_append _ _ _ _ _ _ (interrupted_map_dirs ctx pfx d_name rest hx sx hi)
      | ok st2 =>
        rw [hp] at herr
        simp only [] at herr
        obtain ⟨o2, rfl⟩ := process_dir_ok ctx (dirent.DT_DIR d_name ok entries) _ _ h s o st2 hp
        obtain ⟨pre, rest, hx, sx, o1, e1, rfl, hi⟩ :=
          process_dir_subdirs_error ctx es dirpath pfx _ _ _ _ herr
        refine ⟨(dirent_resources (dirent.DT_DIR d_name ok entries)).map
            (fun r => { r with dirs := d_name :: r.dirs }) ++ pre, rest, hx, sx, o1, ?_, ?_, hi⟩
        · simp only [subdirs_resources, if_neg hdot, e1, List.append_assoc]
        · simp only [header_text_append, source_text_append, header_text_map_dirs,
            source_text_map_dirs, List.append_assoc]
  | dirent.DT_REG _ _ :: es, dirpath, pfx, h, s, o, st1, herr => by
    simp only [process_dir_subdirs] at herr
    simpa only [subdirs_resources] using
      process_dir_subdirs_error ctx es dirpath pfx h s o st1 herr
  | dirent.DT_OTHER _ :: es, dirpath, pfx, h, s, o, st1, herr => by
    simp only [process_dir_subdirs] at herr
    simpa only [subdirs_resources] using
      process_dir_subdirs_error ctx es dirpath pfx h s o st1 herr
end

/-! ## Reading the generated text back -/

theorem mem_intercalate {α : Type} (sep : List α) (x : α) : ∀ ls : List (List α),
    x ∈ List.intercalate sep ls → x ∈ sep ∨ ∃ l ∈ ls, x ∈ l := by
  intro ls
  induction ls with
  | nil => intro h; simp [List.intercalate] at h
  | cons a l ih =>
    intro h
    cases l with
    | nil =>
      right
      exact ⟨a, by simp, by simpa [List.intercalate, List.intersperse] using h⟩
    | cons b l2 =>
      rw [intercalate_cons_cons] at h
      simp only [List.mem_append] at h
      rcases h with (h | h) | h
      · right; exact ⟨a, by simp, h⟩
      · left; exact h
      · rcases ih h with h1 | ⟨l1, hl1, hx⟩
        · left; exact h1
        · right; exact ⟨l1, List.mem_cons_of_mem _ hl1, hx⟩

theorem byte_literals_no_comma (bs : List byte) (text : Bool) :
    ∀ l ∈ bs.map (fun b => byte_literal b.val) ++ (if text then ["0x00".toList] else []),
      ',' ∉ l := by
  intro l hl
  simp only [List.mem_append, List.mem_map] at hl
  rcases hl with ⟨b, _, rfl⟩ | hl
  · exact comma_not_mem_byte_literal b.val b.isLt
  · cases text with
    | true =>
      simp only [if_true, List.mem_singleton] at hl
      subst hl
      decide
    | false => simp at hl

theorem read_byte_literals_map (extra : List CStr) (vals : List Nat)
    (hx : read_byte_literals extra = some vals) : ∀ bs : List byte,
    read_byte_literals (bs.map (fun b => byte_literal b.val) ++ extra) =
      some (bs.map Fin.val ++ vals) := by
  intro bs
  induction bs with
  | nil => simpa using hx
  | cons b bs ih =>
    have e : read_byte_literals (byte_literal b.val ::
        (bs.map (fun b => byte_literal b.val) ++ extra)) =
        match read_byte_literal (byte_literal b.val),
          read_byte_literals (bs.map (fun b => byte_literal b.val) ++ extra) with
        | some b, some bs => some (b :: bs)
        | _, _ => none := rfl
    simp only [List.map_cons, List.cons_append]
    rw [e, ih, read_byte_literal_byte_literal b.val b.isLt]

theorem byte_list_split (bs : List byte) (text : Bool) (hne : bs ≠ []) :
    (byte_list bs text).splitOn ',' =
      bs.map (fun b => byte_literal b.val) ++ (if text then ["0x00".toList] else []) := by
  unfold byte_list
  apply List.splitOn_intercalate
  · exact byte_literals_no_comma bs text
  · cases bs with
    | nil => exact absurd rfl hne
    | cons b bs => simp

theorem read_byte_list_byte_list (bs : List byte) (text : Bool) (hne : bs ≠ []) :
    read_byte_list (byte_list bs text) = some (bs.map Fin.val ++ if text then [0] else []) := by
  unfold read_byte_list
  rw [byte_list_split bs text hne]
  apply read_byte_literals_map
  cases text <;> decide

theorem byte_list_no_brace (bs : List byte) (text : Bool) :
    '\x7b' ∉ byte_list bs text ∧ '\x7d' ∉ byte_list bs text := by
  have key : ∀ l ∈ bs.map (fun b => byte_literal b.val) ++ (if text then ["0x00".toList] else []),
      '\x7b' ∉ l ∧ '\x7d' ∉ l := by
    intro l hl
    simp only [List.mem_append, List.mem_map] at hl
    rcases hl with ⟨b, _, rfl⟩ | hl
    · exact brace_not_mem_byte_literal b.val b.isLt
    · cases text with
      | true =>
        simp only [if_true, List.mem_singleton] at hl
        subst hl
        decide
      | false => simp at hl
  constructor
  · intro h
    rcases mem_intercalate _ _ _ h with h1 | ⟨l, hl, hx⟩
    · revert h1; decide
    · exact (key l hl).1 hx
  · intro h
    rcases mem_intercalate _ _ _ h with h1 | ⟨l, hl, hx⟩
    · revert h1; decide
    · exact (key l hl).2 hx

theorem toDigitsCore_append (fuel : Nat) : ∀ (n : Nat) (ds : List Char),
    Nat.toDigitsCore 10 fuel n ds = Nat.toDigitsCore 10 fuel n [] ++ ds := by
  induction fuel with
  | zero => intro n ds; simp [Nat.toDigitsCore]
  | succ fuel ih =>
    intro n ds
    simp only [Nat.toDigitsCore]
    by_cases h0 : n / 10 = 0
    · simp [h0]
    · simp only [h0, if_false]
      rw [ih (n / 10) (Nat.digitChar (n % 10) :: ds), ih (n / 10) [Nat.digitChar (n % 10)]]
      simp

theorem digit_value_digitChar : ∀ k : Nat, k < 10 →
    digit_value (Nat.digitChar k) = some k ∧ Nat.digitChar k ≠ '+' := by
  decide

theorem parse_dec_from_append (xs : CStr) : ∀ (acc : Nat) (ys : CStr),
    parse_dec_from acc (xs ++ ys) =
      match parse_dec_from acc xs with
      | some a => parse_dec_from a ys
      | none => none := by
  induction xs with
  | nil => intro acc ys; simp [parse_dec_from]
  | cons x xs ih =>
    intro acc ys
    simp only [List.cons_append, parse_dec_from]
    cases digit_value x with
    | none => rfl
    | some d => exact ih _ _

theorem toDigitsCore_spec (fuel : Nat) : ∀ n : Nat, n < fuel →
    parse_dec_from 0 (Nat.toDigitsCore 10 fuel n []) = some n ∧
    Nat.toDigitsCore 10 fuel n [] ≠ [] ∧ '+' ∉ Nat.toDigitsCore 10 fuel n [] := by
  induction fuel with
  | zero => intro n h; omega
  | succ fuel ih =>
    intro n hn
    have hd := digit_value_digitChar (n % 10) (Nat.mod_lt _ (by decide))
    simp only [Nat.toDigitsCore]
    by_cases h0 : n / 10 = 0
    · have hlt : n < 10 := by omega
      have hm : n % 10 = n := Nat.mod_eq_of_lt hlt
      rw [hm] at hd
      simp only [h0, if_true, hm, parse_dec_from, hd.1]
      refine ⟨by simp, by simp, ?_⟩
      simp only [List.mem_singleton]
      exact fun e => hd.2 e.symm
    · simp only [h0, if_false]
      rw [toDigitsCore_append]
      have hlt : n / 10 < fuel := by omega
      obtain ⟨h1, h2, h3⟩ := ih (n / 10) hlt
      refine ⟨?_, by simp, ?_⟩
      · rw [parse_dec_from_append, h1]
        simp only [parse_dec_from, hd.1]
        congr 1
        omega
      · simp only [List.mem_append, List.mem_singleton, not_or]
        exact ⟨h3, fun e => hd.2 e.symm⟩

theorem parse_dec_fmt_u (n : Nat) : parse_dec (fmt_u n) = some n ∧ '+' ∉ fmt_u n := by
  obtain ⟨h1, h2, h3⟩ := toDigitsCore_spec (n + 1) n (Nat.lt_succ_self n)
  unfold parse_dec fmt_u Nat.toDigits
  exact ⟨by rw [if_neg h2]; exact h1, h3⟩

theorem size_value_size_expr (n : Nat) (text : Bool) :
    size_value (size_expr n text) = some (if text then n + 1 else n) := by
  obtain ⟨h1, h2⟩ := parse_dec_fmt_u n
  unfold size_value size_expr
  cases text with
  | true =>
    have e : fmt_u n ++ (if true = true then "+1".toList else []) =
        List.intercalate ['+'] [fmt_u n, "1".toList] := by
      simp [List.intercalate, List.intersperse]
    rw [e, List.splitOn_intercalate]
    · have e1 : parse_dec ['1'] = some 1 := by decide
      simp [sum_terms, h1, e1]
    · intro l hl
      simp only [List.mem_cons, List.mem_singleton, List.not_mem_nil, or_false] at hl
      rcases hl with rfl | rfl
      · exact h2
      · decide
    · simp
  | false =>
    have e : fmt_u n ++ (if false = true then "+1".toList else []) =
        List.intercalate ['+'] [fmt_u n] := by
      simp [List.intercalate, List.intersperse]
    rw [e, List.splitOn_intercalate]
    · simp [sum_terms, h1]
    · intro l hl
      simp only [List.mem_singleton] at hl
      subst hl
      exact h2
    · simp

/-! ## C1: the sanitizer -/

/-- C1: for every string `f`, `str_santize` returns a string of the same length whose
character at each position is that of `f` when it is alphanumeric and `_` otherwise; the
result holds only alphanumerics and `_`, and a string of alphanumerics and underscores is
returned unchanged. -/
theorem str_santize_contract (f : CStr) :
    (str_santize f).length = f.length ∧
    (∀ i : Nat, (str_santize f)[i]? = (f[i]?).map (fun c => if isalnum c then c else '_')) ∧
    (∀ c ∈ str_santize f, isalnum c = true ∨ c = '_') ∧
    ((∀ c ∈ f, isalnum c = true ∨ c = '_') → str_santize f = f) := by
  rw [str_santize_eq_map]
  refine ⟨by simp, ?_, ?_, ?_⟩
  · intro i
    simp only [List.getElem?_map]
    rfl
  · intro c hc
    obtain ⟨a, _, rfl⟩ := List.mem_map.1 hc
    unfold sanitize_char
    by_cases ha : isalnum a = true
    · simp [ha]
    · simp [ha]
  · intro h
    conv_rhs => rw [← List.map_id f]
    apply List.map_congr_left
    intro a ha
    unfold sanitize_char
    rcases h a ha with h1 | h1
    · simp [h1]
    · by_cases h2 : isalnum a = true
      · simp [h2]
      · simp [h2, h1]

/-- C1, at the name `a.b-c_d`, which is sanitized to `a_b_c_d`, and at the name `a_b1`,
which holds only alphanumerics and underscores and is returned as it is. -/
theorem str_santize_contract_witness :
    str_santize "a.b-c_d".toList = "a_b_c_d".toList ∧
    str_santize "a_b1".toList = "a_b1".toList :=
  ⟨by decide, (str_santize_contract "a_b1".toList).2.2.2 (by decide)⟩

/-! ## C3: the byte list of a definition -/

/-- C3: for every non-empty file that the emitter embeds, the definition line is written
after what the definition artifact holds, and the list between its braces is the file's
bytes in order, each as `0x` and two lowercase hexadecimal digits of its unsigned value,
separated by commas, with one final `0x00` for a text file and no trailing comma for a
binary one; reading the list back gives the bytes (and one zero for text), and the number
of elements and the value of the declared size (written as the file's size, followed by
`+1` for text) are the file's size, plus one for text. -/
theorem process_file_byte_list (ctx : context) (dirpath name : CStr) (pfx : Option CStr)
    (f : regfile) (st : outputs)
    (hne : f.bytes ≠ [])
    (hg : output_file_guard ctx name f = guard_result.pass)
    (hr : reads_to_end f = true)
    (hh : at_end st.header) (hs : at_end st.source) :
    ∃ size body : CStr,
      size = fmt_u f.bytes.length ++
        (if file_is_text ctx.text_extension name then "+1".toList else []) ∧
      body = List.intercalate [',']
        (f.bytes.map (fun b => ['0', 'x', hex_digit (b.val / 16), hex_digit (b.val % 16)]) ++
          if file_is_text ctx.text_extension name then ["0x00".toList] else []) ∧
      process_file ctx dirpath name pfx (some f) st =
        .ok { header := stream_end (st.header.data ++ ("extern const char ".toList ++
                declared_name pfx (str_santize name) ++ "[".toList ++ size ++ "];\n".toList)),
              source := stream_end (st.source.data ++ ("const char ".toList ++
                declared_name pfx (str_santize name) ++ "[".toList ++ size ++
                "] = \x7b".toList ++ body ++ "\x7d;\n".toList)),
              stdout := st.stdout } ∧
      '\x7b' ∉ body ∧ '\x7d' ∉ body ∧
      read_byte_list body =
        some (f.bytes.map Fin.val ++ if file_is_text ctx.text_extension name then [0] else []) ∧
      (body.splitOn ',').length =
        (if file_is_text ctx.text_extension name then f.bytes.length + 1 else f.bytes.length) ∧
      size_value size =
        some (if file_is_text ctx.text_extension name then f.bytes.length + 1
          else f.bytes.length) := by
  refine ⟨size_expr f.bytes.length (file_is_text ctx.text_extension name),
    byte_list f.bytes (file_is_text ctx.text_extension name), rfl, rfl, ?_,
    (byte_list_no_brace _ _).1, (byte_list_no_brace _ _).2,
    read_byte_list_byte_list _ _ hne, ?_, size_value_size_expr _ _⟩
  · have e := outputs_eq_stream_end st hh hs
    rw [e, process_file_emit ctx dirpath name pfx f _ _ _ hg hne hr]
    simp only [stream_end_data, declaration_line, definition_line, List.append_assoc]
  · rw [byte_list_split _ _ hne]
    cases file_is_text ctx.text_extension name <;> simp

/-- C3, at the text file `a.txt` with bytes `48 65 ff` and the namespace `P`. -/
theorem process_file_byte_list_witness :
    ∃ size body : CStr,
      size = "3+1".toList ∧ body = "0x48,0x65,0xff,0x00".toList ∧
      process_file
        { text_extension := DEFAULT_TEXT_EXTENSIONS, pfx := some "P".toList,
          define := "RES".toList, header_filename := "res.h".toList, header_stat := ⟨1, 2⟩,
          source_filename := "res.c".toList, source_stat := ⟨1, 3⟩ }
        "/r".toList "a.txt".toList (some "P".toList)
        (some { fstat := some ⟨1, 4⟩, bytes := [0x48, 0x65, 0xff], fread_error := none })
        { header := stream_end [], source := stream_end [], stdout := [] } =
        .ok { header := stream_end ([] ++ ("extern const char ".toList ++
                declared_name (some "P".toList) (str_santize "a.txt".toList) ++ "[".toList ++
                size ++ "];\n".toList)),
              source := stream_end ([] ++ ("const char ".toList ++
                declared_name (some "P".toList) (str_santize "a.txt".toList) ++ "[".toList ++
                size ++ "] = \x7b".toList ++ body ++ "\x7d;\n".toList)),
              stdout := [] } ∧
      read_byte_list body = some [0x48, 0x65, 0xff, 0] ∧
      (body.splitOn ',').length = 4 ∧
      size_value size = some 4 := by
  obtain ⟨size, body, h1, h2, h3, _, _, h5, h6, h7⟩ := process_file_byte_list
    { text_extension := DEFAULT_TEXT_EXTENSIONS, pfx := some "P".toList,
      define := "RES".toList, header_filename := "res.h".toList, header_stat := ⟨1, 2⟩,
      source_filename := "res.c".toList, source_stat := ⟨1, 3⟩ }
    "/r".toList "a.txt".toList (some "P".toList)
    { fstat := some ⟨1, 4⟩, bytes := [0x48, 0x65, 0xff], fread_error := none }
    { header := stream_end [], source := stream_end [], stdout := [] }
    (by decide) (by decide) (by decide) rfl rfl
  refine ⟨size, body, ?_, ?_, h3, ?_, ?_, ?_⟩
  · rw [h1]; decide
  · rw [h2]; decide
  · rw [h5]; decide
  · rw [h6]; decide
  · rw [h7]; decide

/-! ## C5: the array names -/

/-- C5: the array name written for the file reached at `d1/.../dk/f` is the
underscore-join of the global prefix (when one is configured), the sanitized `d1, ..., dk`
and the sanitized `f`, in both artifacts: when the walk of a tree succeeds, both artifacts
hold, after what they held, one line with that name for every embedded file, in the order
of the walk; when it fails they hold these lines for the files of an initial part of the
walk and, if the failure is a failing read, the declaration and the start of the definition
of the next file, with that name. Without a prefix and with `k = 0` the name is the
sanitized `f` alone. -/
theorem array_names_of_walk (ctx : context) (dirpath : CStr) (d : dirent) (st : outputs)
    (hh : at_end st.header) (hs : at_end st.source) :
    (∀ gp dirs name, array_name gp dirs name =
      List.intercalate ['_'] (gp.toList ++ dirs.map str_santize ++ [str_santize name])) ∧
    (∀ name, array_name none [] name = str_santize name) ∧
    (∀ st1, process_dir ctx dirpath ctx.pfx d st = .ok st1 →
      st1.header.data = st.header.data ++
        ((dirent_resources d).filter (emitted ctx)).flatMap (fun r =>
          declaration_line (array_name ctx.pfx r.dirs r.name)
            (resource_bytes r).length (file_is_text ctx.text_extension r.name)) ∧
      st1.source.data = st.source.data ++
        ((dirent_resources d).filter (emitted ctx)).flatMap (fun r =>
          definition_line (array_name ctx.pfx r.dirs r.name)
            (resource_bytes r) (file_is_text ctx.text_extension r.name))) ∧
    (∀ st1, process_dir ctx dirpath ctx.pfx d st = .error st1 →
      ∃ pre rest hx sx, dirent_resources d = pre ++ rest ∧
        st1.header.data = st.header.data ++
          ((pre.filter (emitted ctx)).flatMap (fun r =>
            declaration_line (array_name ctx.pfx r.dirs r.name)
              (resource_bytes r).length (file_is_text ctx.text_extension r.name)) ++ hx) ∧
        st1.source.data = st.source.data ++
          ((pre.filter (emitted ctx)).flatMap (fun r =>
            definition_line (array_name ctx.pfx r.dirs r.name)
              (resource_bytes r) (file_is_text ctx.text_extension r.name)) ++ sx) ∧
        ((hx = [] ∧ sx = []) ∨
          ∃ r rest1 k, rest = r :: rest1 ∧ emitted ctx r = true ∧
            hx = declaration_line (array_name ctx.pfx r.dirs r.name)
              (resource_bytes r).length (file_is_text ctx.text_extension r.name) ∧
            sx = definition_start (array_name ctx.pfx r.dirs r.name) (resource_bytes r)
              (file_is_text ctx.text_extension r.name) k)) := by
  refine ⟨fun _ _ _ => rfl, ?_, ?_, ?_⟩
  · intro name
    simp [array_name, List.intercalate, List.intersperse]
  · intro st1 hok
    rw [outputs_eq_stream_end st hh hs] at hok
    obtain ⟨o1, rfl⟩ := process_dir_ok ctx d dirpath ctx.pfx _ _ _ st1 hok
    exact ⟨rfl, rfl⟩
  · intro st1 herr
    rw [outputs_eq_stream_end st hh hs] at herr
    obtain ⟨pre, rest, hx, sx, o1, e1, rfl, hi⟩ :=
      process_dir_error ctx d dirpath ctx.pfx _ _ _ st1 herr
    exact ⟨pre, rest, hx, sx, e1, rfl, rfl, hi⟩

set_option maxRecDepth 100000 in
/-- C5, at the tree `/r` with `a.txt` and `sub/b.bin` and the prefix `P`. -/
theorem array_names_of_walk_witness :
    ∃ st1, process_dir (main_context opts_P ⟨1, 2⟩ ⟨1, 3⟩) "/r".toList (some "P".toList) tree_r
        outputs_empty = .ok st1 ∧
      st1.header.data =
        "extern const char P_a_txt[2+1];\nextern const char P_sub_b_bin[2];\n".toList ∧
      st1.header.data = outputs_empty.header.data ++
        ((dirent_resources tree_r).filter (emitted (main_context opts_P ⟨1, 2⟩ ⟨1, 3⟩))).flatMap
          (fun r => declaration_line (array_name (some "P".toList) r.dirs r.name)
            (resource_bytes r).length (file_is_text DEFAULT_TEXT_EXTENSIONS r.name)) := by
  refine ⟨_, rfl, ?_, ?_⟩
  · decide
  · exact ((array_names_of_walk (main_context opts_P ⟨1, 2⟩ ⟨1, 3⟩) "/r".toList tree_r
      outputs_empty rfl rfl).2.2.1 _ rfl).1

/-! ## C7: which files the walk embeds -/

theorem process_file_guard_resolves (ctx : context) (dirpath name : CStr) (pfx : Option CStr)
    (fo : Option regfile) (st st1 : outputs)
    (hok : process_file ctx dirpath name pfx fo st = .ok st1) :
    guard_resolves ctx { dirs := [], name := name, file := fo } = true := by
  cases fo with
  | none => simp [process_file] at hok
  | some f =>
    cases hg : output_file_guard ctx name f with
    | failed => simp [process_file, hg] at hok
    | skip => simp [guard_resolves, hg]
    | pass => simp [guard_resolves, hg]

theorem process_dir_files_guard_resolves (ctx : context) (dirpath : CStr) (pfx : Option CStr) :
    ∀ (es : List dirent) (st st1 : outputs),
      process_dir_files ctx dirpath pfx es st = .ok st1 →
      ∀ r ∈ entries_files es, guard_resolves ctx r = true := by
  intro es
  induction es with
  | nil => intro st st1 _ r hr; simp [entries_files] at hr
  | cons e es ih =>
    intro st st1 hok r hr
    cases e with
    | DT_REG d_name f =>
      simp only [process_dir_files] at hok
      cases hp : process_file ctx dirpath d_name pfx f st with
      | error st2 => rw [hp] at hok; simp at hok
      | ok st2 =>
        rw [hp] at hok
        simp only [entries_files, List.mem_cons] at hr
        rcases hr with rfl | hr
        · exact process_file_guard_resolves ctx dirpath d_name pfx f st st2 hp
        · exact ih st2 st1 hok r hr
    | DT_DIR d_name ok entries =>
      simp only [process_dir_files] at hok
      simp only [entries_files] at hr
      exact ih st st1 hok r hr
    | DT_OTHER d_name =>
      simp only [process_dir_files] at hok
      simp only [entries_files] at hr
      exact ih st st1 hok r hr

mutual
/-- After a successful call of `process_dir` every regular file below the directory was
opened and passed or was skipped by the guard without a failing `fstat`. -/
theorem process_dir_guard_resolves (ctx : context) : ∀ (d : dirent) (dirpath : CStr)
    (pfx : Option CStr) (st st1 : outputs),
    process_dir ctx dirpath pfx d st = .ok st1 →
    ∀ r ∈ dirent_resources d, guard_resolves ctx r = true
  | dirent.DT_DIR _ true entries, dirpath, pfx, st, st1, hok => by
    intro r hr
    simp only [process_dir] at hok
    cases hf : process_dir_files ctx dirpath pfx entries st with
    | error st2 => rw [hf] at hok; simp at hok
    | ok st2 =>
      rw [hf] at hok
      simp only [dirent_resources, List.mem_append] at hr
      rcases hr with hr | hr
      · exact process_dir_files_guard_resolves ctx dirpath pfx entries st st2 hf r hr
      · exact process_dir_subdirs_guard_resolves ctx entries dirpath pfx st2 st1 hok r hr
  | dirent.DT_DIR _ false _, _, _, _, _, hok => by simp [process_dir] at hok
  | dirent.DT_REG _ _, _, _, _, _, hok => by simp [process_dir] at hok
  | dirent.DT_OTHER _, _, _, _, _, hok => by simp [process_dir] at hok
/-- The same after a successful second loop of `process_dir`. -/
theorem process_dir_subdirs_guard_resolves (ctx : context) : ∀ (es : List dirent)
    (dirpath : CStr) (pfx : Option CStr) (st st1 : outputs),
    process_dir_subdirs ctx dirpath pfx es st = .ok st1 →
    ∀ r ∈ subdirs_resources es, guard_resolves ctx r = true
  | [], _, _, _, _, _ => by
    intro r hr
    simp [subdirs_resources] at hr
  | dirent.DT_DIR d_name ok entries :: es, dirpath, pfx, st, st1, hok => by
    intro r hr
    simp only [process_dir_subdirs] at hok
    by_cases hdot : d_name = ".".toList ∨ d_name = "..".toList
    · rw [if_pos hdot] at hok
      simp only [subdirs_resources, if_pos hdot, List.nil_append] at hr
      exact process_dir_subdirs_guard_resolves ctx es dirpath pfx st st1 hok r hr
    · rw [if_neg hdot] at hok
      have hns : ∀ q : Option CStr, (match q with
          | some p => p ++ "_".toList ++ str_santize d_name
          | none => str_santize d_name) = sub_namespace q d_name := fun _ => rfl
      rw [hns pfx] at hok
      cases hp : process_dir ctx (dirpath ++ [PATH_SEPARATOR] ++ d_name)
          (some (sub_namespace pfx d_name)) (dirent.DT_DIR d_name ok entries) st with
      | error st2 => rw [hp] at hok; simp at hok
      | ok st2 =>
        rw [hp] at hok
        simp only [subdirs_resources, if_neg hdot, List.mem_append, List.mem_map] at hr
        rcases hr with ⟨r0, hr0, rfl⟩ | hr
        · exact process_dir_guard_resolves ctx (dirent.DT_DIR d_name ok entries) _ _ st st2 hp
            r0 hr0
        · exact process_dir_subdirs_guard_resolves ctx es dirpath pfx st2 st1 hok r hr
  | dirent.DT_REG _ _ :: es, dirpath, pfx, st, st1, hok => by
    intro r hr
    simp only [process_dir_subdirs] at hok
    simp only [subdirs_resources] at hr
    exact process_dir_subdirs_guard_resolves ctx es dirpath pfx st st1 hok r hr
  | dirent.DT_OTHER _ :: es, dirpath, pfx, st, st1, hok => by
    intro r hr
    simp only [process_dir_subdirs] at hok
    simp only [subdirs_resources] at hr
    exact process_dir_subdirs_guard_resolves ctx es dirpath pfx st st1 hok r hr
end

/-- With distinct base names of the two artifacts, the guard lets a file pass exactly when
it is not an output artifact by base name and identity, provided `fstat` did not fail. -/
theorem emitted_eq_of_guard_resolves (ctx : context) (r : resource)
    (hn : ctx.header_filename ≠ ctx.source_filename)
    (hr : guard_resolves ctx r = true) :
    emitted ctx r = decide (resource_bytes r ≠ [] ∧ is_output_file ctx r = false) := by
  obtain ⟨dirs, name, file⟩ := r
  cases file with
  | none => simp [guard_resolves] at hr
  | some f =>
    obtain ⟨fs, bytes, fe⟩ := f
    have hn2 : ¬ ctx.source_filename = ctx.header_filename := fun e => hn e.symm
    simp only [guard_resolves, emitted, is_output_file, resource_bytes, output_file_guard,
      stat_eq_iff, decide_eq_true_eq] at hr ⊢
    rw [decide_eq_decide]
    simp only [decide_eq_false_iff_not]
    by_cases h1 : name = ctx.header_filename
    · subst h1
      cases fs with
      | none => simp at hr
      | some st =>
        by_cases h3 : st = ctx.header_stat
        · simp [h3]
        · simp [h3, hn]
    · by_cases h2 : name = ctx.source_filename
      · subst h2
        cases fs with
        | none => simp [h1] at hr
        | some st =>
          by_cases h3 : st = ctx.source_stat
          · simp [h1, h3]
          · simp [h1, h3]
      · simp [h1, h2]

set_option maxRecDepth 100000 in
/-- C7, as stated, fails: the tree holds the binary file `a.bin` and, after it, a hard link
`alias` to the definition artifact, which by then holds on disk the 54 bytes that the
`fseek` after the byte of `a.bin` flushed. Of the two files only `a.bin` is both non-empty
and of an identity other than those of the two artifacts, yet the walk succeeds and the
definition artifact holds two array definitions: one for `a.bin` and one, of 54 bytes, for
`alias`. -/
theorem hard_link_of_artifact_is_embedded :
    (fread_loop [0x01] none
      (fputs (print_declaration fopen_source res_type.RES_TYPE_BINARY none "a_bin".toList 1)
        " = \x7b".toList)).1.data = flushed_source ∧
    ((dirent_resources tree_alias).filter
      (fun r => decide (resource_bytes r ≠ []) &&
        !has_output_identity (main_context opts_plain ⟨1, 2⟩ ⟨1, 3⟩) r)).map
      (fun r => r.name) = ["a.bin".toList] ∧
    ∃ st1, main_start opts_plain ⟨1, 2⟩ ⟨1, 3⟩ "/r".toList tree_alias = .ok st1 ∧
      st1.source.data =
        ("/* Generated by dir2c */\n\n" ++
         "const char a_bin[1] = \x7b0x01\x7d;\n" ++
         "const char alias[54] = \x7b" ++
         "0x2f,0x2a,0x20,0x47,0x65,0x6e,0x65,0x72,0x61,0x74,0x65,0x64," ++
         "0x20,0x62,0x79,0x20,0x64,0x69,0x72,0x32,0x63,0x20,0x2a,0x2f," ++
         "0x0a,0x0a,0x63,0x6f,0x6e,0x73,0x74,0x20,0x63,0x68,0x61,0x72," ++
         "0x20,0x61,0x5f,0x62,0x69,0x6e,0x5b,0x31,0x5d,0x20,0x3d,0x20," ++
         "0x7b,0x30,0x78,0x30,0x31,0x2c" ++
         "\x7d;\n").toList := by
  have h : (match main_start opts_plain ⟨1, 2⟩ ⟨1, 3⟩ "/r".toList tree_alias with
      | .ok s => some s.source.data
      | .error _ => none) =
      some ("/* Generated by dir2c */\n\n" ++
         "const char a_bin[1] = \x7b0x01\x7d;\n" ++
         "const char alias[54] = \x7b" ++
         "0x2f,0x2a,0x20,0x47,0x65,0x6e,0x65,0x72,0x61,0x74,0x65,0x64," ++
         "0x20,0x62,0x79,0x20,0x64,0x69,0x72,0x32,0x63,0x20,0x2a,0x2f," ++
         "0x0a,0x0a,0x63,0x6f,0x6e,0x73,0x74,0x20,0x63,0x68,0x61,0x72," ++
         "0x20,0x61,0x5f,0x62,0x69,0x6e,0x5b,0x31,0x5d,0x20,0x3d,0x20," ++
         "0x7b,0x30,0x78,0x30,0x31,0x2c" ++
         "\x7d;\n").toList := by decide!
  refine ⟨by decide!, by decide!, ?_⟩
  cases hm : main_start opts_plain ⟨1, 2⟩ ⟨1, 3⟩ "/r".toList tree_alias with
  | ok s =>
    rw [hm] at h
    exact ⟨s, rfl, Option.some.inj h⟩
  | error s =>
    rw [hm] at h
    exact absurd h (by simp)

/-- C7, amended: when the two artifacts have different base names and the walk of a tree
succeeds, the definition artifact holds, after what it held, exactly one array definition
for each regular file of the tree that is non-empty and is not one of the two output
artifacts by both base name and identity, in the order of the walk, and nothing else. -/
theorem embedded_files_of_walk (ctx : context) (dirpath : CStr) (d : dirent)
    (st st1 : outputs)
    (hn : ctx.header_filename ≠ ctx.source_filename)
    (hh : at_end st.header) (hs : at_end st.source)
    (hok : process_dir ctx dirpath ctx.pfx d st = .ok st1) :
    st1.source.data = st.source.data ++
      ((dirent_resources d).filter
        (fun r => decide (resource_bytes r ≠ [] ∧ is_output_file ctx r = false))).flatMap
        (resource_definition ctx ctx.pfx) := by
  have hres := process_dir_guard_resolves ctx d dirpath ctx.pfx st st1 hok
  rw [outputs_eq_stream_end st hh hs] at hok
  obtain ⟨o1, rfl⟩ := process_dir_ok ctx d dirpath ctx.pfx _ _ _ st1 hok
  have hf : (dirent_resources d).filter (emitted ctx) =
      (dirent_resources d).filter
        (fun r => decide (resource_bytes r ≠ [] ∧ is_output_file ctx r = false)) := by
    apply List.filter_congr
    intro r hr
    exact emitted_eq_of_guard_resolves ctx r hn (hres r hr)
  simp only [stream_end_data, source_text, hf]

set_option maxRecDepth 100000 in
/-- C7, amended, at the tree `/r` with `a.txt` and `sub/b.bin` and the prefix `P`. -/
theorem embedded_files_of_walk_witness :
    ∃ st1, process_dir (main_context opts_P ⟨1, 2⟩ ⟨1, 3⟩) "/r".toList (some "P".toList) tree_r
        outputs_empty = .ok st1 ∧
      st1.source.data = outputs_empty.source.data ++
        ((dirent_resources tree_r).filter
          (fun r => decide (resource_bytes r ≠ [] ∧
            is_output_file (main_context opts_P ⟨1, 2⟩ ⟨1, 3⟩) r = false))).flatMap
          (resource_definition (main_context opts_P ⟨1, 2⟩ ⟨1, 3⟩) (some "P".toList)) ∧
      (dirent_resources tree_r).length = 2 := by
  refine ⟨_, rfl, ?_, by decide⟩
  exact embedded_files_of_walk (main_context opts_P ⟨1, 2⟩ ⟨1, 3⟩) "/r".toList tree_r
    outputs_empty _ (by decide) rfl rfl rfl

/-! ## C9: failures abort the walk -/

/-- C9: `process_dir` fails when the directory cannot be opened; it fails, in the state
the failing call left, as soon as the emitter fails on a regular file (as it does on a file
that cannot be opened) or the walk of a subdirectory fails, so that nothing is written for
a later entry and no further subdirectory is visited, and a failing subdirectory makes its
parent fail; it succeeds only when the emitter succeeded on every regular file and the walk
on every subdirectory; a file the guard skips and a zero-byte file count as success and
leave both artifacts as they were. -/
theorem process_dir_failure (ctx : context) (dirpath : CStr) (pfx : Option CStr)
    (d_name : CStr) :
    (∀ entries st,
      process_dir ctx dirpath pfx (dirent.DT_DIR d_name false entries) st = .error st) ∧
    (∀ name st, process_file ctx dirpath name pfx none st = .error st) ∧
    (∀ pre name f post st st1 st2,
      process_dir_files ctx dirpath pfx pre st = .ok st1 →
      process_file ctx dirpath name pfx f st1 = .error st2 →
      process_dir ctx dirpath pfx
        (dirent.DT_DIR d_name true (pre ++ dirent.DT_REG name f :: post)) st = .error st2) ∧
    (∀ pre n ok sub post st st1 st2 st3,
      process_dir_files ctx dirpath pfx (pre ++ dirent.DT_DIR n ok sub :: post) st = .ok st1 →
      process_dir_subdirs ctx dirpath pfx pre st1 = .ok st2 →
      ¬ (n = ".".toList ∨ n = "..".toList) →
      process_dir ctx (dirpath ++ [PATH_SEPARATOR] ++ n) (some (sub_namespace pfx n))
        (dirent.DT_DIR n ok sub) st2 = .error st3 →
      process_dir ctx dirpath pfx
        (dirent.DT_DIR d_name true (pre ++ dirent.DT_DIR n ok sub :: post)) st = .error st3) ∧
    (∀ entries st st1,
      process_dir ctx dirpath pfx (dirent.DT_DIR d_name true entries) st = .ok st1 →
      (∀ pre name f post, entries = pre ++ dirent.DT_REG name f :: post →
        ∃ s1 s2, process_dir_files ctx dirpath pfx pre st = .ok s1 ∧
          process_file ctx dirpath name pfx f s1 = .ok s2) ∧
      (∀ pre n ok sub post, entries = pre ++ dirent.DT_DIR n ok sub :: post →
        ¬ (n = ".".toList ∨ n = "..".toList) →
        ∃ s0 s1 s2, process_dir_files ctx dirpath pfx entries st = .ok s0 ∧
          process_dir_subdirs ctx dirpath pfx pre s0 = .ok s1 ∧
          process_dir ctx (dirpath ++ [PATH_SEPARATOR] ++ n) (some (sub_namespace pfx n))
            (dirent.DT_DIR n ok sub) s1 = .ok s2)) ∧
    (∀ name f st, output_file_guard ctx name f = guard_result.skip →
      process_file ctx dirpath name pfx (some f) st = .ok st) ∧
    (∀ name f st, output_file_guard ctx name f = guard_result.pass → f.bytes = [] →
      ∃ st1, process_file ctx dirpath name pfx (some f) st = .ok st1 ∧
        st1.header = st.header ∧ st1.source = st.source) := by
  refine ⟨?_, ?_, ?_, ?_, ?_, ?_, ?_⟩
  · intro entries st
    simp [process_dir]
  · intro name st
    simp [process_file]
  · intro pre name f post st st1 st2 h1 h2
    rw [process_dir_dir_true, process_dir_files_append, h1]
    simp only [process_dir_files, h2]
  · intro pre n ok sub post st st1 st2 st3 h1 h2 hdot h3
    rw [process_dir_dir_true, h1]
    simp only []
    rw [process_dir_subdirs_append, h2]
    simp only []
    rw [process_dir_subdirs_cons_dir, if_neg hdot, h3]
  · intro entries st st1 hok
    rw [process_dir_dir_true] at hok
    cases hf : process_dir_files ctx dirpath pfx entries st with
    | error s0 => rw [hf] at hok; simp at hok
    | ok s0 =>
      rw [hf] at hok
      simp only [] at hok
      constructor
      · intro pre name f post he
        subst he
        rw [process_dir_files_append] at hf
        cases hpre : process_dir_files ctx dirpath pfx pre st with
        | error s1 => rw [hpre] at hf; simp at hf
        | ok s1 =>
          rw [hpre] at hf
          simp only [process_dir_files] at hf
          cases hp : process_file ctx dirpath name pfx f s1 with
          | error s2 => rw [hp] at hf; simp at hf
          | ok s2 => exact ⟨s1, s2, rfl, hp⟩
      · intro pre n ok sub post he hdot
        subst he
        rw [process_dir_subdirs_append] at hok
        cases hpre : process_dir_subdirs ctx dirpath pfx pre s0 with
        | error s1 => rw [hpre] at hok; simp at hok
        | ok s1 =>
          rw [hpre] at hok
          simp only [process_dir_subdirs_cons_dir, if_neg hdot] at hok
          cases hp : process_dir ctx (dirpath ++ [PATH_SEPARATOR] ++ n)
              (some (sub_namespace pfx n)) (dirent.DT_DIR n ok sub) s1 with
          | error s2 => rw [hp] at hok; simp at hok
          | ok s2 => exact ⟨s0, s1, s2, rfl, hpre, hp⟩
  · intro name f st hg
    simp [process_file, hg]
  · intro name f st hg hb
    refine ⟨{ st with stdout := st.stdout ++ "Ignoring empty file '".toList ++
      (dirpath ++ [PATH_SEPARATOR] ++ name) ++ "'\n".toList }, ?_, rfl, rfl⟩
    simp only [process_file, hg, file_size, hb, List.length_nil, if_true]

set_option maxRecDepth 100000 in
/-- C9, at a tree whose second file cannot be opened: the walk fails with the declaration
of the first file alone written, and nothing for the later file or the subdirectory. -/
theorem process_dir_failure_witness :
    process_dir_files (main_context opts_plain ⟨1, 2⟩ ⟨1, 3⟩) "/r".toList none
      [dirent.DT_REG "first".toList
        (some { fstat := some ⟨1, 12⟩, bytes := [0x31], fread_error := none })]
      outputs_empty =
      .ok { header := stream_end "extern const char first[1];\n".toList,
            source := stream_end "const char first[1] = \x7b0x31\x7d;\n".toList,
            stdout := [] } ∧
    process_dir (main_context opts_plain ⟨1, 2⟩ ⟨1, 3⟩) "/r".toList none tree_bad
      outputs_empty =
      .error { header := stream_end "extern const char first[1];\n".toList,
               source := stream_end "const char first[1] = \x7b0x31\x7d;\n".toList,
               stdout := [] } := by
  have h1 : process_dir_files (main_context opts_plain ⟨1, 2⟩ ⟨1, 3⟩) "/r".toList none
      [dirent.DT_REG "first".toList
        (some { fstat := some ⟨1, 12⟩, bytes := [0x31], fread_error := none })]
      outputs_empty =
      .ok { header := stream_end "extern const char first[1];\n".toList,
            source := stream_end "const char first[1] = \x7b0x31\x7d;\n".toList,
            stdout := [] } := rfl
  exact ⟨h1, (process_dir_failure (main_context opts_plain ⟨1, 2⟩ ⟨1, 3⟩) "/r".toList none
    "/r".toList).2.2.1 _ "bad".toList none _ outputs_empty _ _ h1
    ((process_dir_failure (main_context opts_plain ⟨1, 2⟩ ⟨1, 3⟩) "/r".toList none
      "/r".toList).2.1 "bad".toList _)⟩

/-! ## C4: the artifacts of the example tree -/

set_option maxRecDepth 100000 in
/-- C4, as stated, fails: for the tree `/r` with `a.txt` and `sub/b.bin` and the prefix `P`
the artifacts hold no line `extern const char P_a_txt[3];` and no line
`const char P_a_txt[3] = {0x48,0x65,0x00};`. -/
theorem example_tree_size_not_summed :
    ∃ st, main_start opts_P ⟨1, 2⟩ ⟨1, 3⟩ "/r".toList tree_r = .ok st ∧
      "extern const char P_a_txt[3];".toList ∉ lines st.header.data ∧
      "const char P_a_txt[3] = \x7b0x48,0x65,0x00\x7d;".toList ∉ lines st.source.data := by
  refine ⟨_, rfl, by decide, by decide⟩

set_option maxRecDepth 100000 in
/-- C4, amended: for the tree `/r` with `a.txt` (bytes `48 65`) and `sub/b.bin` (bytes
`01 02`), the prefix `P` and the default text extensions, in either order of enumeration,
the declaration artifact holds the lines `extern const char P_a_txt[2+1];` and
`extern const char P_sub_b_bin[2];` and the definition artifact holds the lines
`const char P_a_txt[2+1] = {0x48,0x65,0x00};` and `const char P_sub_b_bin[2] = {0x01,0x02};`,
character for character: the size of the text file is written as the sum `2+1`. -/
theorem example_tree_artifacts :
    ∃ st, main_start opts_P ⟨1, 2⟩ ⟨1, 3⟩ "/r".toList tree_r = .ok st ∧
      main_start opts_P ⟨1, 2⟩ ⟨1, 3⟩ "/r".toList tree_r_rev = .ok st ∧
      "extern const char P_a_txt[2+1];".toList ∈ lines st.header.data ∧
      "extern const char P_sub_b_bin[2];".toList ∈ lines st.header.data ∧
      "const char P_a_txt[2+1] = \x7b0x48,0x65,0x00\x7d;".toList ∈ lines st.source.data ∧
      "const char P_sub_b_bin[2] = \x7b0x01,0x02\x7d;".toList ∈ lines st.source.data ∧
      st.header.data = ("#ifndef RES\n#define RES\n\n#ifdef __cplusplus\nextern \"C\" \x7b\n" ++
        "#endif\n\nextern const char P_a_txt[2+1];\nextern const char P_sub_b_bin[2];\n" ++
        "\n#ifdef __cplusplus\n\x7d\n#endif\n\n#endif\n").toList ∧
      st.source.data = ("/* Generated by dir2c */\n\n" ++
        "const char P_a_txt[2+1] = \x7b0x48,0x65,0x00\x7d;\n" ++
        "const char P_sub_b_bin[2] = \x7b0x01,0x02\x7d;\n").toList := by
  refine ⟨_, rfl, rfl, by decide, by decide, by decide, by decide, by decide, by decide⟩

/-! ## C6: the guard of the output files -/

/-- A file with the base name and the identity of the declaration artifact is skipped:
nothing is written and the call succeeds. -/
theorem guard_skips_declaration_artifact (ctx : context) (dirpath name : CStr)
    (pfx : Option CStr) (f : regfile) (st : outputs)
    (hname : name = ctx.header_filename) (hid : f.fstat = some ctx.header_stat) :
    process_file ctx dirpath name pfx (some f) st = .ok st := by
  simp [process_file, output_file_guard, hname, hid]

/-- A file with the base name and the identity of the definition artifact is skipped when
its name is not also the base name of the declaration artifact. -/
theorem guard_skips_definition_artifact (ctx : context) (dirpath name : CStr)
    (pfx : Option CStr) (f : regfile) (st : outputs)
    (hother : name ≠ ctx.header_filename)
    (hname : name = ctx.source_filename) (hid : f.fstat = some ctx.source_stat) :
    process_file ctx dirpath name pfx (some f) st = .ok st := by
  have h2 : ¬ ctx.source_filename = ctx.header_filename := fun e => hother (hname.trans e)
  simp [process_file, output_file_guard, hname, hid, h2]

/-- A file whose identity is neither of the two captured ones is not skipped by the guard,
whatever its name. -/
theorem guard_keeps_other_identity (ctx : context) (name : CStr) (f : regfile)
    (h1 : f.fstat ≠ some ctx.header_stat) (h2 : f.fstat ≠ some ctx.source_stat) :
    output_file_guard ctx name f ≠ guard_result.skip := by
  obtain ⟨fs, bytes, fe⟩ := f
  simp only [output_file_guard, stat_eq_iff]
  cases fs with
  | none => split_ifs <;> simp
  | some st =>
    have e1 : ¬ st = ctx.header_stat := fun e => h1 (by simp [e])
    have e2 : ¬ st = ctx.source_stat := fun e => h2 (by simp [e])
    split_ifs <;> simp [e1, e2]

set_option maxRecDepth 100000 in
/-- C6, the failing input: with `-H inc/res -s src/res` the two artifacts have the base name
`res`; the candidate `res` with the identity captured for the definition artifact is not
skipped: the guard compares it with the identity of the declaration artifact only, and an
array is written for it to both artifacts. -/
theorem guard_misses_definition_artifact :
    (main_context opts_same_name ⟨1, 2⟩ ⟨1, 3⟩).header_filename = "res".toList ∧
    (main_context opts_same_name ⟨1, 2⟩ ⟨1, 3⟩).source_filename = "res".toList ∧
    output_file_guard (main_context opts_same_name ⟨1, 2⟩ ⟨1, 3⟩) "res".toList
      { fstat := some ⟨1, 3⟩, bytes := [0x2f], fread_error := none } = guard_result.pass ∧
    process_file (main_context opts_same_name ⟨1, 2⟩ ⟨1, 3⟩) "./src".toList "res".toList
      (some "src".toList)
      (some { fstat := some ⟨1, 3⟩, bytes := [0x2f], fread_error := none }) outputs_empty =
      .ok { header := stream_end "extern const char src_res[1];\n".toList,
            source := stream_end "const char src_res[1] = \x7b0x2f\x7d;\n".toList,
            stdout := [] } := by
  refine ⟨by decide, by decide, by decide, rfl⟩

/-! ## C2: the classifier -/

/-- C2, the failing input: with the configured extensions `html,htm` the file `a.htm` has
the extension `htm`, which is a delimited entry of the configured string, and
`file_is_text` returns 0: only the first occurrence of `htm`, inside `html`, is tested. -/
theorem file_is_text_misses_later_entry :
    file_extension "a.htm".toList = some "htm".toList ∧
    is_delimited_entry "html,htm".toList "htm".toList ∧
    file_is_text "html,htm".toList "a.htm".toList = false := by
  refine ⟨by decide, ⟨"html,".toList, [], by decide, ?_, Or.inl rfl⟩, by decide⟩
  exact Or.inr ⟨"html".toList, by decide⟩

theorem starts_with_split : ∀ (h n : CStr), starts_with h n = true → ∃ post, h = n ++ post := by
  intro h n
  induction n generalizing h with
  | nil => intro _; exact ⟨h, rfl⟩
  | cons c cs ih =>
    intro hs
    cases h with
    | nil => simp [starts_with] at hs
    | cons x xs =>
      simp only [starts_with, Bool.and_eq_true, beq_iff_eq] at hs
      obtain ⟨post, e⟩ := ih xs hs.2
      exact ⟨post, by simp [hs.1, e]⟩

theorem strstr_split : ∀ (h n : CStr) (p : Nat), strstr h n = some p →
    ∃ pre post, h = pre ++ n ++ post ∧ pre.length = p := by
  intro h
  induction h with
  | nil =>
    intro n p hs
    simp only [strstr] at hs
    split at hs
    · rename_i hsw
      obtain ⟨post, e⟩ := starts_with_split [] n hsw
      simp only [Option.some.injEq] at hs
      exact ⟨[], post, by simpa using e, by simp [← hs]⟩
    · simp at hs
  | cons x xs ih =>
    intro n p hs
    simp only [strstr] at hs
    split at hs
    · rename_i hsw
      obtain ⟨post, e⟩ := starts_with_split (x :: xs) n hsw
      simp only [Option.some.injEq] at hs
      exact ⟨[], post, by simpa using e, by simp [← hs]⟩
    · cases hxs : strstr xs n with
      | none => rw [hxs] at hs; simp at hs
      | some q =>
        rw [hxs] at hs
        simp only [Option.map_some', Option.some.injEq] at hs
        obtain ⟨pre, post, e, hl⟩ := ih n q hxs
        exact ⟨x :: pre, post, by simp [e], by simp [hl, ← hs]⟩

theorem char_at_append (a b : CStr) (i : Nat) : char_at (a ++ b) (a.length + i) = char_at b i := by
  induction a with
  | nil => simp
  | cons x xs ih =>
    have e : (x :: xs).length + i = (xs.length + i) + 1 := by simp; omega
    rw [e]
    simpa [char_at] using ih

/-- The half of C2 that holds: when `file_is_text` returns 1, the file name has an
extension and that extension is a delimited entry of the configured string. -/
theorem file_is_text_sound (exts fname : CStr) (hnul : Char.ofNat 0 ∉ exts)
    (h : file_is_text exts fname = true) :
    ∃ ext, file_extension fname = some ext ∧ is_delimited_entry exts ext := by
  unfold file_is_text at h
  cases hext : file_extension fname with
  | none => rw [hext] at h; simp at h
  | some ext =>
    rw [hext] at h
    simp only [] at h
    refine ⟨ext, rfl, ?_⟩
    cases hp : strstr exts ext with
    | none => rw [hp] at h; simp at h
    | some p =>
      rw [hp] at h
      simp only [] at h
      obtain ⟨pre, post, e, hl⟩ := strstr_split exts ext p hp
      subst hl
      have hafter : char_at exts (pre.length + ext.length) = char_at post 0 := by
        rw [e]
        have := char_at_append (pre ++ ext) post 0
        simpa using this
      have hpost : (char_at post 0 = ',' ∨ char_at post 0 = Char.ofNat 0) →
          (post = [] ∨ ∃ q, post = ',' :: q) := by
        intro hc
        cases post with
        | nil => exact Or.inl rfl
        | cons c q =>
          right
          have hc0 : char_at (c :: q) 0 = c := rfl
          rw [hc0] at hc
          rcases hc with hc | hc
          · exact ⟨q, by rw [hc]⟩
          · exfalso
            apply hnul
            rw [e, ← hc]
            simp
      refine ⟨pre, post, e, ?_, ?_⟩
      · by_cases h0 : pre.length = 0
        · exact Or.inl (List.length_eq_zero.1 h0)
        · right
          simp only [h0, if_false, Bool.and_eq_true, decide_eq_true_eq] at h
          obtain ⟨x, y, hxy⟩ := snoc_of_ne_nil pre (fun e0 => h0 (by simp [e0]))
          refine ⟨x, ?_⟩
          have hc : char_at exts (pre.length - 1) = y := by
            rw [e, hxy]
            have := char_at_append_cons x y (ext ++ post)
            simpa using this
          rw [hxy, ← hc, h.1]
      · apply hpost
        rw [← hafter]
        by_cases h0 : pre.length = 0
        · simpa [h0] using h
        · simp only [h0, if_false, Bool.and_eq_true, Bool.or_eq_true, decide_eq_true_eq] at h
          exact h.2

/-- The half of C2 that holds, at the file `a.ini` and the extensions `ini,txt`. -/
theorem file_is_text_sound_witness :
    ∃ ext, file_extension "a.ini".toList = some ext ∧ is_delimited_entry "ini,txt".toList ext :=
  file_is_text_sound "ini,txt".toList "a.ini".toList (by decide) (by decide)

/-- The three examples of the classifier named in the specification. -/
theorem file_is_text_examples :
    file_is_text "ini,txt".toList "a.ini".toList = true ∧
    file_is_text "ini,txt".toList "a.inix".toList = false ∧
    file_is_text "ini,txt".toList "a".toList = false := by
  decide

/-! ## C10: array names collide -/

set_option maxRecDepth 100000 in
/-- C10: the array name is not injective in the relative path: `a.txt` and `a_txt` in one
directory both get the name `a_txt`, and `sub/b` and `sub_b` under the root both get the
name `sub_b`; the walk of such a tree succeeds and writes two entries with the same name
to each artifact. -/
theorem array_name_not_injective :
    array_name none [] "a.txt".toList = array_name none [] "a_txt".toList ∧
    array_name none ["sub".toList] "b".toList = array_name none [] "sub_b".toList ∧
    (∃ st, process_dir (main_context opts_plain ⟨1, 2⟩ ⟨1, 3⟩) "/r".toList none tree_clash
        outputs_empty = .ok st ∧
      st.header.data =
        "extern const char a_txt[1+1];\nextern const char a_txt[1];\n".toList ∧
      st.source.data = ("const char a_txt[1+1] = \x7b0x31,0x00\x7d;\n" ++
        "const char a_txt[1] = \x7b0x32\x7d;\n").toList) ∧
    (∃ st, process_dir (main_context opts_plain ⟨1, 2⟩ ⟨1, 3⟩) "/r".toList none tree_clash_sub
        outputs_empty = .ok st ∧
      st.header.data =
        "extern const char sub_b[1];\nextern const char sub_b[1];\n".toList ∧
      st.source.data = ("const char sub_b[1] = \x7b0x34\x7d;\n" ++
        "const char sub_b[1] = \x7b0x33\x7d;\n").toList) := by
  refine ⟨by decide, by decide, ⟨_, rfl, by decide, by decide⟩, ⟨_, rfl, by decide, by decide⟩⟩

/-! ## C8: the include guard -/

/-- C8, as stated, fails: with `-d guard_h` the token written after `#ifndef` and after
`#define` is `GUARD_H`, not the value as the user gave it. -/
theorem include_guard_not_verbatim :
    main_define (some "guard_h".toList) "res.h".toList ≠ "guard_h".toList ∧
    (fopen_header (main_context
      { define := some "guard_h".toList, header_path := "res.h".toList,
        source_path := "res.c".toList, pfx := none, text_extension := none } ⟨1, 2⟩ ⟨1, 3⟩)).data
      = "#ifndef GUARD_H\n#define GUARD_H\n\n#ifdef __cplusplus\nextern \"C\" \x7b\n#endif\n\n".toList := by
  decide

/-- C8, amended: the token written after `#ifndef` and after `#define` at the top of the
declaration artifact is the `-d` value with every alphabetic character uppercased when
`-d` is supplied, and otherwise the base name of the declaration file without its
extension, with every alphabetic character uppercased; other characters are unchanged. -/
theorem include_guard_token (o : options) (header_stat source_stat : stat) :
    ∃ tok : CStr,
      (fopen_header (main_context o header_stat source_stat)).data =
        "#ifndef ".toList ++ tok ++ "\n#define ".toList ++ tok ++
          "\n\n#ifdef __cplusplus\nextern \"C\" \x7b\n#endif\n\n".toList ∧
      (∀ d, o.define = some d →
        tok = d.map (fun c => if isalpha c then toupper c else c)) ∧
      (o.define = none → ∃ base stem, is_base_name o.header_path base ∧ is_stem base stem ∧
        tok = stem.map (fun c => if isalpha c then toupper c else c)) := by
  refine ⟨main_define o.define o.header_path, ?_, ?_, ?_⟩
  · have e : ({ data := [], pos := 0 } : stream) = stream_end [] := rfl
    simp only [fopen_header, main_context, e, fputs_end, stream_end_data]
    simp
  · intro d hd
    simp only [main_define, hd, str_upper_eq_map]
    rfl
  · intro hd
    refine ⟨filename o.header_path, _, filename_is_base_name _,
      strip_extension_is_stem (filename o.header_path), ?_⟩
    simp only [main_define, hd, str_upper_eq_map]
    rfl

/-- C8, amended, at `-d guard_h` and at the declaration file `out/res.tar.h` without `-d`. -/
theorem include_guard_token_witness :
    main_define (some "guard_h".toList) "out/res.tar.h".toList = "GUARD_H".toList ∧
    main_define none "out/res.tar.h".toList = "RES.TAR".toList ∧
    ∃ tok : CStr,
      (fopen_header (main_context opts_P ⟨1, 2⟩ ⟨1, 3⟩)).data =
        "#ifndef ".toList ++ tok ++ "\n#define ".toList ++ tok ++
          "\n\n#ifdef __cplusplus\nextern \"C\" \x7b\n#endif\n\n".toList ∧
      (∀ d, opts_P.define = some d →
        tok = d.map (fun c => if isalpha c then toupper c else c)) ∧
      (opts_P.define = none → ∃ base stem, is_base_name opts_P.header_path base ∧
        is_stem base stem ∧ tok = stem.map (fun c => if isalpha c then toupper c else c)) :=
  ⟨by decide, by decide, include_guard_token opts_P ⟨1, 2⟩ ⟨1, 3⟩⟩

end Dir2c
